import Mathlib

/-!
Shallow embedding of the minimal-basis restricted Hartree-Fock program
(`main_hf_program.py`): the STO-3G basis builder, the Gaussian-integral
routines (overlap, kinetic, nuclear attraction, two-electron), the Boys
function and the SCF fixed-point loop, together with theorems settling the
stated properties of the program.

Modelling conventions:
* Python floats are modelled as exact real numbers; the combinatorial and
  basis-building layers, which the program computes with exact integer and
  decimal literals, are modelled over `ℚ` so that they are executable.
* `scipy.special.factorial2(n, exact=True)` is `fact2` (it returns 1 at
  `n = -1` and 0 below), `scipy.special.gammainc` is the regularized lower
  incomplete gamma function `gammainc`, `scipy.special.gamma` is
  `Real.Gamma`.
* Python `int(x)` on a quotient of integers truncates toward zero; where an
  index expression can be negative this is modelled with `Int.tdiv`.
* A Python `KeyError`/`IndexError` (dictionary or list lookup out of range)
  is modelled by `Option`, with `none` for the raised exception.
* The two dense linear-algebra library calls of the SCF loop
  (`linalg.sqrtm(linalg.inv S)` and `linalg.eigh`) are modelled as function
  parameters `sqrtmInv` and `eigh`; theorems that need their defining
  properties (`Xᵀ S X = 1`, orthogonality of eigenvectors) take them as
  hypotheses.
-/

namespace HF

open Finset Matrix

/-- `scipy.special.factorial2 n (exact := true)` on the integer arguments the
program uses: the double factorial, extended with value 1 at `-1` and `0`,
and 0 below `-1`. -/
def fact2N : ℕ → ℕ
  | 0 => 1
  | 1 => 1
  | (n+2) => (n+2) * fact2N n

/-- Double factorial on `ℤ` as `scipy.special.factorial2` computes it. -/
def fact2 (n : ℤ) : ℤ :=
  if n < -1 then 0 else if n = -1 then 1 else (fact2N n.toNat : ℤ)

/-- `ck(j,l,m,a,b)` from the source: the binomial-weighted coefficient sum
`Σ_{k≤l} Σ_{i≤m, i+k=j} C(l,k)·C(m,i)·a^(l-k)·b^(m-i)`.  The angular
arguments are integers because the kinetic-energy routine calls the overlap
helper with shifted (possibly negative) angular momenta; a negative `l` or
`m` makes the corresponding Python `range` empty. -/
noncomputable def ck (j : ℕ) (l m : ℤ) (a b : ℝ) : ℝ :=
  ∑ k ∈ range (l + 1).toNat, ∑ i ∈ range (m + 1).toNat,
    if (k : ℤ) + (i : ℤ) = (j : ℤ) then
      (l.toNat.choose k : ℝ) * (m.toNat.choose i : ℝ) *
        a ^ (l - k).toNat * b ^ (m - i).toNat
    else 0

/-- `gaussianProduct(a,RA,b,RB,g)`: the center of the product Gaussian. -/
noncomputable def gaussianProduct (a : ℝ) (RA : Fin 3 → ℝ) (b : ℝ) (RB : Fin 3 → ℝ)
    (g : ℝ) : Fin 3 → ℝ :=
  fun i => (a * RA i + b * RB i) / g

/-- `IJsq(RI,RJ)`: squared distance between two points. -/
noncomputable def IJsq (RI RJ : Fin 3 → ℝ) : ℝ :=
  ∑ i : Fin 3, (RI i - RJ i) ^ 2

/-- `si(lA,lB,g,Ai,Bi,Pi)`: the one-dimensional overlap factor
`√(π/g) · Σ_j ck(2j,…)·(2j-1)!!/(2g)^j`, the Python loop bound
`int((lA+lB)/2)+1` truncating toward zero. -/
noncomputable def si (lA lB : ℤ) (g Ai Bi Pi : ℝ) : ℝ :=
  (∑ j ∈ range ((lA + lB).tdiv 2 + 1).toNat,
      ck (2 * j) lA lB (Pi - Ai) (Pi - Bi) * (fact2 (2 * j - 1) : ℝ)
        / (2 * g) ^ j) *
    Real.sqrt (Real.pi / g)

/-- `Sxyz(RA,RB,a,b,lA,lB,mA,mB,nA,nB)`: the primitive overlap integral as a
product of the three one-dimensional factors, the product center computed
with `g = a + b`. -/
noncomputable def Sxyz (RA RB : Fin 3 → ℝ) (a b : ℝ)
    (lA lB mA mB nA nB : ℤ) : ℝ :=
  let RP := gaussianProduct a RA b RB (a + b)
  si lA lB (a + b) (RA 0) (RB 0) (RP 0) *
    si mA mB (a + b) (RA 1) (RB 1) (RP 1) *
    si nA nB (a + b) (RA 2) (RB 2) (RP 2)

/-- `N(a,l,m,n)`: the primitive normalization constant
`((4a)^(l+m+n) / ((2l-1)!!(2m-1)!!(2n-1)!!) · (2a/π)^1.5)^0.5`. -/
noncomputable def Nnorm (a : ℝ) (l m n : ℕ) : ℝ :=
  Real.rpow
    ((4 * a) ^ (l + m + n)
        / ((fact2 (2 * l - 1) : ℝ) * (fact2 (2 * m - 1) : ℝ) *
            (fact2 (2 * n - 1) : ℝ))
      * Real.rpow (2 * a / Real.pi) 1.5)
    0.5

/-- `Kxyz(RA,RB,a,b,lA,lB,mA,mB,nA,nB)`: the primitive kinetic integral as
the linear combination of overlap integrals at shifted angular momenta. -/
noncomputable def Kxyz (RA RB : Fin 3 → ℝ) (a b : ℝ)
    (lA lB mA mB nA nB : ℤ) : ℝ :=
  b * (2 * (lB + mB + nB) + 3 : ℤ) * Sxyz RA RB a b lA lB mA mB nA nB
    - 2 * b ^ 2 * Sxyz RA RB a b lA (lB + 2) mA mB nA nB
    - 2 * b ^ 2 * Sxyz RA RB a b lA lB mA (mB + 2) nA nB
    - 2 * b ^ 2 * Sxyz RA RB a b lA lB mA mB nA (nB + 2)
    - 1 / 2 * (lB * (lB - 1) : ℤ) * Sxyz RA RB a b lA (lB - 2) mA mB nA nB
    - 1 / 2 * (mB * (mB - 1) : ℤ) * Sxyz RA RB a b lA lB mA (mB - 2) nA nB
    - 1 / 2 * (nB * (nB - 1) : ℤ) * Sxyz RA RB a b lA lB mA mB nA (nB - 2)

/-- The per-axis regrouping of `Kxyz`: the three shifted-overlap terms of
one Cartesian direction, with the product center component
`Pi = (a·Ai + b·Bi)/(a+b)` as `Sxyz` computes it. -/
noncomputable def kin1 (lA lB : ℤ) (a b Ai Bi : ℝ) : ℝ :=
  b * ((2 * lB + 1 : ℤ) : ℝ) *
      si lA lB (a + b) Ai Bi ((a * Ai + b * Bi) / (a + b))
    - 2 * b ^ 2 * si lA (lB + 2) (a + b) Ai Bi ((a * Ai + b * Bi) / (a + b))
    - 1 / 2 * ((lB * (lB - 1) : ℤ) : ℝ) *
      si lA (lB - 2) (a + b) Ai Bi ((a * Ai + b * Bi) / (a + b))

/-- The lower incomplete gamma function `γ(s,x) = ∫_0^x t^(s-1) e^(-t) dt`,
the integral that `scipy.special.gammainc` regularizes. -/
noncomputable def lowerGamma (s x : ℝ) : ℝ :=
  ∫ t in (0:ℝ)..x, t ^ (s - 1) * Real.exp (-t)

/-- `scipy.special.gammainc(s,x)`: the regularized lower incomplete gamma
function `P(s,x) = γ(s,x)/Γ(s)`. -/
noncomputable def gammainc (s x : ℝ) : ℝ :=
  lowerGamma s x / Real.Gamma s

/-- `BoysFunction(nu,x)` from the source: the small-`x` series
`(2ν+1)⁻¹ − x·(2ν+3)⁻¹` when `x < 1e-7`, otherwise
`½·x^(−(ν+0.5))·Γ(ν+0.5)·P(ν+0.5,x)`. -/
noncomputable def BoysFunction (nu x : ℝ) : ℝ :=
  if x < 1e-7 then
    (2 * nu + 1)⁻¹ - x * (2 * nu + 3)⁻¹
  else
    1 / 2 * Real.rpow x (-(nu + 0.5)) * Real.Gamma (nu + 0.5) *
      gammainc (nu + 0.5) x

/-- `vi(l,r,i,lA,lB,Ai,Bi,Ci,Pi,g)`: the one-axis factor of the
nuclear-attraction integral, with `eps = 1/(4g)`. -/
noncomputable def vi (l r i : ℕ) (lA lB : ℕ) (Ai Bi Ci Pi g : ℝ) : ℝ :=
  let eps := 1 / (4 * g)
  (-1 : ℝ) ^ l * ck l lA lB (Pi - Ai) (Pi - Bi) *
      ((-1 : ℝ) ^ i * (l.factorial : ℝ)) *
      ((Pi - Ci) ^ (l - 2 * r - 2 * i) * eps ^ (r + i)) /
      (r.factorial : ℝ) / (i.factorial : ℝ) /
      ((l - 2 * r - 2 * i).factorial : ℝ)

/-- The accumulated value of the local variable `Vxyz` after the nine nested
loops of the source's `Vxyz`, with the Boys-function evaluator abstracted as
a parameter `Fb` (the source passes `BoysFunction`): each term is
`vx·vy·vz·Fb(l+m+n−2(r+s+t)−(i+j+k), g·|PCsq|)` where
`PCsq = IJsq(RP,RC)`. -/
noncomputable def VxyzLoop (Fb : ℝ → ℝ → ℝ) (lA mA nA lB mB nB : ℕ)
    (a b : ℝ) (RA RB RC : Fin 3 → ℝ) : ℝ :=
  let g := a + b
  let RP := gaussianProduct a RA b RB g
  let PCsq := IJsq RP RC
  ∑ l ∈ range (lA + lB + 1), ∑ r ∈ range (l / 2 + 1),
    ∑ i ∈ range ((l - 2 * r) / 2 + 1),
      ∑ m ∈ range (mA + mB + 1), ∑ s ∈ range (m / 2 + 1),
        ∑ j ∈ range ((m - 2 * s) / 2 + 1),
          ∑ n ∈ range (nA + nB + 1), ∑ t ∈ range (n / 2 + 1),
            ∑ k ∈ range ((n - 2 * t) / 2 + 1),
              vi l r i lA lB (RA 0) (RB 0) (RC 0) (RP 0) g *
                vi m s j mA mB (RA 1) (RB 1) (RC 1) (RP 1) g *
                vi n t k nA nB (RA 2) (RB 2) (RC 2) (RP 2) g *
                Fb ((l + m + n - 2 * (r + s + t) - (i + j + k) : ℕ) : ℝ)
                  (g * |PCsq|)

/-- `Vxyz(lA,mA,nA,lB,mB,nB,a,b,RA,RB,RC,Z)` from the source: the loop value
scaled by `2π/g`, the Gaussian prefactor, both normalization constants and
`-Z`. -/
noncomputable def Vxyz (lA mA nA lB mB nB : ℕ) (a b : ℝ)
    (RA RB RC : Fin 3 → ℝ) (Z : ℝ) : ℝ :=
  VxyzLoop BoysFunction lA mA nA lB mB nB a b RA RB RC *
    (2 * Real.pi / (a + b)) *
    Real.exp (-(a * b * |IJsq RA RB|) / (a + b)) *
    Nnorm a lA mA nA * Nnorm b lB mB nB * (-Z)

/-- The same nine nested loops written from the specification's words, with
the Boys argument `x = g·|RP−RC|` read literally as `g` times the distance
between the product center and the nucleus. -/
noncomputable def VxyzLoopSpecDist (Fb : ℝ → ℝ → ℝ) (lA mA nA lB mB nB : ℕ)
    (a b : ℝ) (RA RB RC : Fin 3 → ℝ) : ℝ :=
  let g := a + b
  let RP := gaussianProduct a RA b RB g
  let PCsq := IJsq RP RC
  ∑ l ∈ range (lA + lB + 1), ∑ r ∈ range (l / 2 + 1),
    ∑ i ∈ range ((l - 2 * r) / 2 + 1),
      ∑ m ∈ range (mA + mB + 1), ∑ s ∈ range (m / 2 + 1),
        ∑ j ∈ range ((m - 2 * s) / 2 + 1),
          ∑ n ∈ range (nA + nB + 1), ∑ t ∈ range (n / 2 + 1),
            ∑ k ∈ range ((n - 2 * t) / 2 + 1),
              vi l r i lA lB (RA 0) (RB 0) (RC 0) (RP 0) g *
                vi m s j mA mB (RA 1) (RB 1) (RC 1) (RP 1) g *
                vi n t k nA nB (RA 2) (RB 2) (RC 2) (RP 2) g *
                Fb ((l + m + n - 2 * (r + s + t) - (i + j + k) : ℕ) : ℝ)
                  (g * Real.sqrt PCsq)

/-- The amended reading of the specification's Boys argument: the same loops
with `x = g·|RP−RC|²`, `g` times the squared distance, written without the
source's redundant absolute value. -/
noncomputable def VxyzLoopSpecSq (Fb : ℝ → ℝ → ℝ) (lA mA nA lB mB nB : ℕ)
    (a b : ℝ) (RA RB RC : Fin 3 → ℝ) : ℝ :=
  let g := a + b
  let RP := gaussianProduct a RA b RB g
  let PCsq := IJsq RP RC
  ∑ l ∈ range (lA + lB + 1), ∑ r ∈ range (l / 2 + 1),
    ∑ i ∈ range ((l - 2 * r) / 2 + 1),
      ∑ m ∈ range (mA + mB + 1), ∑ s ∈ range (m / 2 + 1),
        ∑ j ∈ range ((m - 2 * s) / 2 + 1),
          ∑ n ∈ range (nA + nB + 1), ∑ t ∈ range (n / 2 + 1),
            ∑ k ∈ range ((n - 2 * t) / 2 + 1),
              vi l r i lA lB (RA 0) (RB 0) (RC 0) (RP 0) g *
                vi m s j mA mB (RA 1) (RB 1) (RC 1) (RP 1) g *
                vi n t k nA nB (RA 2) (RB 2) (RC 2) (RP 2) g *
                Fb ((l + m + n - 2 * (r + s + t) - (i + j + k) : ℕ) : ℝ)
                  (g * PCsq)

/-- `theta(l,lA,lB,PA,PB,r,g)`: `ck·l!·g^(r−l)/(r!·(l−2r)!)`; the exponent
`r − l` can be negative, matching Python's float power. -/
noncomputable def theta (l : ℕ) (lA lB : ℕ) (PA PB : ℝ) (r : ℕ)
    (g : ℝ) : ℝ :=
  ck l lA lB PA PB * (l.factorial : ℝ) * g ^ ((r : ℤ) - (l : ℤ)) /
    ((r.factorial : ℝ) * ((l - 2 * r).factorial : ℝ))

/-- `gi(l,lp,r,rp,i,…)`: the one-axis factor of the two-electron integral,
with `delta = 1/(4gP) + 1/(4gQ)`. -/
noncomputable def gi (l lp r rp i : ℕ) (lA lB : ℕ) (Ai Bi Pi gP : ℝ)
    (lC lD : ℕ) (Ci Di Qi gQ : ℝ) : ℝ :=
  let delta := 1 / (4 * gP) + 1 / (4 * gQ)
  (-1 : ℝ) ^ l *
      (theta l lA lB (Pi - Ai) (Pi - Bi) r gP *
        theta lp lC lD (Qi - Ci) (Qi - Di) rp gQ) *
      ((-1 : ℝ) ^ i * (2 * delta) ^ (2 * (r + rp))) *
      (((l + lp - 2 * r - 2 * rp).factorial : ℝ) * delta ^ i) *
      (Pi - Qi) ^ (l + lp - 2 * (r + rp + i)) /
      ((4 * delta) ^ (l + lp) * (i.factorial : ℝ)) /
      ((l + lp - 2 * (r + rp + i)).factorial : ℝ)

/-- `Gxyz(…)` from the source: the Boys-weighted fifteen-fold nested sum of
`gx·gy·gz` factors, scaled by `2π²/(gP·gQ)·√(π/(gP+gQ))`, the two pairwise
Gaussian prefactors and the four normalization constants.  The source's
local variables `gP = a+b`, `gQ = c+d`, `delta`, `RP`, `RQ` and the squared
distances are inlined. -/
noncomputable def Gxyz (lA mA nA lB mB nB lC mC nC lD mD nD : ℕ)
    (a b c d : ℝ) (RA RB RC RD : Fin 3 → ℝ) : ℝ :=
  (∑ l ∈ range (lA + lB + 1), ∑ r ∈ range (l / 2 + 1),
      ∑ lp ∈ range (lC + lD + 1), ∑ rp ∈ range (lp / 2 + 1),
        ∑ i ∈ range ((l + lp - 2 * r - 2 * rp) / 2 + 1),
          ∑ m ∈ range (mA + mB + 1), ∑ s ∈ range (m / 2 + 1),
            ∑ mp ∈ range (mC + mD + 1), ∑ sp ∈ range (mp / 2 + 1),
              ∑ j ∈ range ((m + mp - 2 * s - 2 * sp) / 2 + 1),
                ∑ n ∈ range (nA + nB + 1), ∑ t ∈ range (n / 2 + 1),
                  ∑ np ∈ range (nC + nD + 1), ∑ tp ∈ range (np / 2 + 1),
                    ∑ k ∈ range ((n + np - 2 * t - 2 * tp) / 2 + 1),
                      gi l lp r rp i lA lB (RA 0) (RB 0)
                          (gaussianProduct a RA b RB (a + b) 0) (a + b)
                          lC lD (RC 0) (RD 0)
                          (gaussianProduct c RC d RD (c + d) 0) (c + d) *
                        gi m mp s sp j mA mB (RA 1) (RB 1)
                          (gaussianProduct a RA b RB (a + b) 1) (a + b)
                          mC mD (RC 1) (RD 1)
                          (gaussianProduct c RC d RD (c + d) 1) (c + d) *
                        gi n np t tp k nA nB (RA 2) (RB 2)
                          (gaussianProduct a RA b RB (a + b) 2) (a + b)
                          nC nD (RC 2) (RD 2)
                          (gaussianProduct c RC d RD (c + d) 2) (c + d) *
                        BoysFunction
                          ((l + lp + m + mp + n + np
                              - 2 * (r + rp + s + sp + t + tp)
                              - (i + j + k) : ℕ) : ℝ)
                          (IJsq (gaussianProduct a RA b RB (a + b))
                              (gaussianProduct c RC d RD (c + d)) /
                            (4 * (1 / (4 * (a + b)) + 1 / (4 * (c + d)))))) *
    (2 * Real.pi ^ 2 / ((a + b) * (c + d))) *
    Real.sqrt (Real.pi / ((a + b) + (c + d))) *
    Real.exp (-(a * b * IJsq RA RB) / (a + b)) *
    Real.exp (-(c * d * IJsq RC RD) / (c + d)) *
    (Nnorm a lA mA nA * Nnorm b lB mB nB * Nnorm c lC mC nC *
      Nnorm d lD mD nD)
/-- A contracted atomic orbital as the builder appends it: the dictionary of
the source, with its keys `Z`, `o`, `R`, `l`, `m`, `n`, `a`, `d` as fields.
The numeric entries are the exact decimal literals of the STO-3G table,
hence rationals. -/
structure Orbital where
  Z : ℕ
  o : String
  R : Fin 3 → ℚ
  l : ℕ
  m : ℕ
  n : ℕ
  a : Fin 3 → ℚ
  d : Fin 3 → ℚ
deriving DecidableEq

/-- The module-level tuple `a`: per element (row `Z−1`), the pair of
exponent triples (1s row, 2s/2p row).  Indexing a row beyond the table (the
source has rows for H through O only) is the Python `IndexError`. -/
def aConst : List ((Fin 3 → ℚ) × (Fin 3 → ℚ)) :=
  [ (![0.16885540, 0.62391373, 3.42525091], ![0, 0, 0]),
    (![0.31364979, 1.15892300, 6.36242139], ![0, 0, 0]),
    (![0.7946505, 2.9362007, 16.1195750], ![0.0480887, 0.1478601, 0.6362897]),
    (![1.4871927, 5.4951153, 30.1678710], ![0.0993707, 0.3055389, 1.3148331]),
    (![2.4052670, 8.8873622, 48.7911130], ![0.1690618, 0.5198205, 2.2369561]),
    (![3.5305122, 13.0450960, 71.6168370], ![0.2222899, 0.6834831, 2.9412494]),
    (![4.8856602, 18.0523120, 99.1061690], ![0.2857144, 0.8784966, 3.7804559]),
    (![6.4436083, 23.8088610, 130.7093200], ![0.3803890, 1.1695961, 5.0331513]) ]

/-- Contraction-coefficient row `d[0]` (1s). -/
def d1s : Fin 3 → ℚ := ![0.44463454, 0.53532814, 0.15432897]

/-- Contraction-coefficient row `d[1]` (2s). -/
def d2s : Fin 3 → ℚ := ![0.70011547, 0.39951283, -0.09996723]

/-- Contraction-coefficient row `d[2]` (2p). -/
def d2p : Fin 3 → ℚ := ![0.39195739, 0.60768372, 0.15591627]

/-- The dictionary `Z`: element symbol to atomic number; a missing key is
the Python `KeyError`, hence `none`. -/
def Zdict : String → Option ℕ := fun s =>
  if s = "H" then some 1 else if s = "He" then some 2
  else if s = "Li" then some 3 else if s = "Be" then some 4
  else if s = "B" then some 5 else if s = "C" then some 6
  else if s = "N" then some 7 else if s = "O" then some 8
  else if s = "F" then some 9 else if s = "Ne" then some 10
  else if s = "K" then some 19 else if s = "Ca" then some 20
  else if s = "Sc" then some 21 else none

/-- The dictionary `subshells`: the minimal-basis orbital configuration,
defined for `H` and `O` only. -/
def subshellsOf : String → Option (List String) := fun s =>
  if s = "H" then some ["1s"]
  else if s = "O" then some ["1s", "2s", "2p"]
  else none

/-- The orbitals the builder appends for one `subshell` entry of one atom:
`'1s'` and `'2s'` append one s-type orbital each, `'2p'` appends the three
p-type orbitals sharing the 2s/2p exponent row; any other string appends
nothing.  `none` models the table lookups that can raise. -/
def orbsForShell (z : ℕ) (Ri : Fin 3 → ℚ) (sh : String) :
    Option (List Orbital) :=
  if sh = "1s" then
    (aConst.get? (z - 1)).map fun row =>
      [⟨z, "1s", Ri, 0, 0, 0, row.1, d1s⟩]
  else if sh = "2s" then
    (aConst.get? (z - 1)).map fun row =>
      [⟨z, "2s", Ri, 0, 0, 0, row.2, d2s⟩]
  else if sh = "2p" then
    (aConst.get? (z - 1)).map fun row =>
      [⟨z, "2px", Ri, 1, 0, 0, row.2, d2p⟩,
       ⟨z, "2py", Ri, 0, 1, 0, row.2, d2p⟩,
       ⟨z, "2pz", Ri, 0, 0, 1, row.2, d2p⟩]
  else some []

/-- All orbitals appended for one atom: the inner loop of the builder over
`subshells[atom]`. -/
def orbsForAtom (atom : String) (Ri : Fin 3 → ℚ) : Option (List Orbital) :=
  (subshellsOf atom).bind fun shells =>
    (Zdict atom).bind fun z =>
      (shells.mapM (orbsForShell z Ri)).map List.flatten

/-- The outer loop of the builder over `enumerate(atoms)`: atom `i` reads
its coordinates from `R[i]` (`none` when the coordinate list is too
short). -/
def buildAux : List String → ℕ → List (Fin 3 → ℚ) → Option (List Orbital)
  | [], _, _ => some []
  | atom :: rest, i, R =>
      (R.get? i).bind fun Ri =>
        (orbsForAtom atom Ri).bind fun os =>
          (buildAux rest (i + 1) R).map fun more => os ++ more

/-- `build_sto3Gbasis(atoms, R)`: the ordered orbital list together with the
orbital count `K` (the source increments `K` once per appended orbital, so
`K` is the length of the list). -/
def build_sto3Gbasis (atoms : List String) (R : List (Fin 3 → ℚ)) :
    Option (List Orbital × ℕ) :=
  (buildAux atoms 0 R).map fun b => (b, b.length)

/-- `electronCount(atoms)`: the sum of the atomic numbers. -/
def electronCount (atoms : List String) : Option ℕ :=
  atoms.foldlM (fun acc A => (Zdict A).map (acc + ·)) 0

/-- The per-atom orbital count dictated by the subshell table: 1 for `H`,
5 for `O` (`1s`,`2s`,`2px`,`2py`,`2pz`). -/
def atomOrbCount (s : String) : ℕ :=
  if s = "H" then 1 else if s = "O" then 5 else 0

/-- Real image of a rational coordinate vector. -/
noncomputable def rv (v : Fin 3 → ℚ) : Fin 3 → ℝ := fun i => (v i : ℝ)

/-- One entry of the overlap matrix `S[A,B]` as `buildS` accumulates it:
the sum over the primitive pairs `zip(bA.a,bA.d) × zip(bB.a,bB.d)` of the
Gaussian prefactor, the two normalization constants, the contraction
coefficients and `Sxyz`. -/
noncomputable def Sab (bA bB : Orbital) : ℝ :=
  ∑ i : Fin 3, ∑ j : Fin 3,
    Real.exp (-(bA.a i : ℝ) * (bB.a j : ℝ) * IJsq (rv bA.R) (rv bB.R)
        / ((bA.a i : ℝ) + (bB.a j : ℝ))) *
      Nnorm (bA.a i : ℝ) bA.l bA.m bA.n * Nnorm (bB.a j : ℝ) bB.l bB.m bB.n *
      (bA.d i : ℝ) * (bB.d j : ℝ) *
      Sxyz (rv bA.R) (rv bB.R) (bA.a i : ℝ) (bB.a j : ℝ)
        bA.l bB.l bA.m bB.m bA.n bB.n

/-- One entry of the kinetic matrix `T[A,B]` as `buildT` accumulates it. -/
noncomputable def Tab (bA bB : Orbital) : ℝ :=
  ∑ i : Fin 3, ∑ j : Fin 3,
    Real.exp (-(bA.a i : ℝ) * (bB.a j : ℝ) * IJsq (rv bA.R) (rv bB.R)
        / ((bA.a i : ℝ) + (bB.a j : ℝ))) *
      Nnorm (bA.a i : ℝ) bA.l bA.m bA.n * Nnorm (bB.a j : ℝ) bB.l bB.m bB.n *
      (bA.d i : ℝ) * (bB.d j : ℝ) *
      Kxyz (rv bA.R) (rv bB.R) (bA.a i : ℝ) (bB.a j : ℝ)
        bA.l bB.l bA.m bB.m bA.n bB.n

/-- One entry of the two-electron tensor `G[A,B,C,D]` as `buildG`
accumulates it. -/
noncomputable def Gab (bA bB bC bD : Orbital) : ℝ :=
  ∑ i : Fin 3, ∑ j : Fin 3, ∑ k : Fin 3, ∑ l4 : Fin 3,
    (bA.d i : ℝ) * (bB.d j : ℝ) * (bC.d k : ℝ) * (bD.d l4 : ℝ) *
      Gxyz bA.l bA.m bA.n bB.l bB.m bB.n bC.l bC.m bC.n bD.l bD.m bD.n
        (bA.a i : ℝ) (bB.a j : ℝ) (bC.a k : ℝ) (bD.a l4 : ℝ)
        (rv bA.R) (rv bB.R) (rv bC.R) (rv bD.R)

/-- `scf_max_iter = 20`: the constant the loop bound is built from. -/
def scf_max_iter : ℕ := 20

/-- The SCF convergence threshold `convergence = 1e-5`. -/
def convergence : ℚ := 1 / 100000

/-- The two-electron contribution
`P[m,n] = Σ_{l,s} D[l,s]·(G[m,n,s,l] − 0.5·G[m,l,s,n])` of one SCF
iteration. -/
def twoEP {K : ℕ} (G : Fin K → Fin K → Fin K → Fin K → ℚ)
    (D : Matrix (Fin K) (Fin K) ℚ) : Matrix (Fin K) (Fin K) ℚ :=
  Matrix.of fun m n => ∑ l : Fin K, ∑ s : Fin K,
    D l s * (G m n s l - 1 / 2 * G m l s n)

/-- The density build
`D[m,n] = 2·Σ_{a < int(N/2)} C[m,a]·C[n,a]` of one SCF iteration, over the
column indices that exist (`int(N/2) ≤ K`; a larger occupation index is the
Python `IndexError`, handled in `scfStep`). -/
def buildD {K : ℕ} (N : ℕ) (C : Matrix (Fin K) (Fin K) ℚ) :
    Matrix (Fin K) (Fin K) ℚ :=
  Matrix.of fun m n =>
    2 * ∑ a ∈ Finset.univ.filter (fun a : Fin K => (a : ℕ) < N / 2),
      C m a * C n a

/-- The electronic energy
`Eel = Σ_{m,n} 0.5·D[n,m]·(Hcore[m,n] + F[m,n])` of one SCF iteration. -/
def EelOf {K : ℕ} (D Hcore F : Matrix (Fin K) (Fin K) ℚ) : ℚ :=
  ∑ m : Fin K, ∑ n : Fin K, 1 / 2 * D n m * (Hcore m n + F m n)

/-- One SCF iteration body: two-electron contribution, Fock matrix,
transformation, diagonalization (`eigh`, abstracted; only the eigenvector
matrix `Cp` is used, as in the source), back-transformation, density build
and energy.  Returns the new `(D, Eel)`; `none` models the `IndexError`
raised by the density build when `int(N/2) > K`. -/
def scfStep {K : ℕ} (eigh : Matrix (Fin K) (Fin K) ℚ →
      Matrix (Fin K) (Fin K) ℚ)
    (Hcore X : Matrix (Fin K) (Fin K) ℚ)
    (G : Fin K → Fin K → Fin K → Fin K → ℚ) (N : ℕ)
    (D : Matrix (Fin K) (Fin K) ℚ) :
    Option (Matrix (Fin K) (Fin K) ℚ × ℚ) :=
  if N / 2 ≤ K then
    let P := twoEP G D
    let F := Hcore + P
    let Fp := X * F * X
    let Cp := eigh Fp
    let C := X * Cp
    let Dn := buildD N C
    some (Dn, EelOf Dn Hcore F)
  else none

/-- The `for iteration in range(scf_max_iter+1)` loop of `compute_HFenergy`:
state `(D, Eel, count)`, the body `scfStep`, and the break test
`|Eel − E_old| < convergence and iteration > 0` evaluated after the energy
update (`count += 1` is skipped by the break).  Returns the final
`(Eel, count)` that the summary print reads. -/
def scfGo {K : ℕ} (eigh : Matrix (Fin K) (Fin K) ℚ →
      Matrix (Fin K) (Fin K) ℚ)
    (Hcore X : Matrix (Fin K) (Fin K) ℚ)
    (G : Fin K → Fin K → Fin K → Fin K → ℚ) (N : ℕ) :
    List ℕ → Matrix (Fin K) (Fin K) ℚ → ℚ → ℕ → Option (ℚ × ℕ)
  | [], _, Eel, count => some (Eel, count)
  | iteration :: rest, D, Eel, count =>
      match scfStep eigh Hcore X G N D with
      | none => none
      | some (Dn, Eeln) =>
          if |Eeln - Eel| < convergence ∧ 0 < iteration then
            some (Eeln, count)
          else scfGo eigh Hcore X G N rest Dn Eeln (count + 1)

/-- The values printed by the terminating summary of `compute_HFenergy`:
the total energy `Eel + Vnn` and the iteration counter.  `Hcore = T + V`,
`D` and `Eel` start at zero, `count` starts at 1 and
`X = sqrtm(inv(S))` is the abstracted library call `sqrtmInv`.  `none`
models an uncaught exception. -/
def compute_HFenergyRun {K : ℕ}
    (sqrtmInv eigh : Matrix (Fin K) (Fin K) ℚ → Matrix (Fin K) (Fin K) ℚ)
    (N : ℕ) (Vnn : ℚ) (S T V : Matrix (Fin K) (Fin K) ℚ)
    (G : Fin K → Fin K → Fin K → Fin K → ℚ) : Option (ℚ × ℕ) :=
  let Hcore := T + V
  let X := sqrtmInv S
  (scfGo eigh Hcore X G N (List.range (scf_max_iter + 1)) 0 0 1).map
    fun p => (p.1 + Vnn, p.2)

/-- The value `compute_HFenergy` returns to its caller: the function body
has no `return` statement, so a completed run returns Python's `None`,
modelled as `Unit`. -/
def compute_HFenergyReturn {K : ℕ}
    (sqrtmInv eigh : Matrix (Fin K) (Fin K) ℚ → Matrix (Fin K) (Fin K) ℚ)
    (N : ℕ) (Vnn : ℚ) (S T V : Matrix (Fin K) (Fin K) ℚ)
    (G : Fin K → Fin K → Fin K → Fin K → ℚ) : Option Unit :=
  (compute_HFenergyRun sqrtmInv eigh N Vnn S T V G).map fun _ => ()

/-- A concrete eigenvector-oracle for the 1×1 refutation runs: constant 1. -/
def eighConst : Matrix (Fin 1) (Fin 1) ℚ → Matrix (Fin 1) (Fin 1) ℚ :=
  fun _ => 1

/-- A concrete eigenvector-oracle whose output alternates with the Fock
matrix, driving a non-convergent two-cycle of the 1×1 SCF iteration. -/
def eighCycle : Matrix (Fin 1) (Fin 1) ℚ → Matrix (Fin 1) (Fin 1) ℚ :=
  fun M => Matrix.of fun _ _ => if M 0 0 = 9 then 1 else 2

/-- A vanishing 1×1 two-electron tensor. -/
def Gzero : Fin 1 → Fin 1 → Fin 1 → Fin 1 → ℚ := fun _ _ _ _ => 0

/-- A constant 1×1 two-electron tensor of value 2. -/
def Gtwo : Fin 1 → Fin 1 → Fin 1 → Fin 1 → ℚ := fun _ _ _ _ => 2

/-- The water geometry of the final-task section of the program. -/
def waterR : List (Fin 3 → ℚ) :=
  [![0, 0, 0.227], ![0, 1.353, -0.908], ![0, -1.353, -0.908]]

/-- The oxygen 1s orbital of the water basis, as the builder constructs
it. -/
def waterO1s : Orbital :=
  ⟨8, "1s", ![0, 0, 0.227], 0, 0, 0,
    ![6.4436083, 23.8088610, 130.7093200], d1s⟩

/-- The first hydrogen 1s orbital of the water basis. -/
def waterH1s : Orbital :=
  ⟨1, "1s", ![0, 1.353, -0.908], 0, 0, 0,
    ![0.16885540, 0.62391373, 3.42525091], d1s⟩

/-- The seven-orbital water basis returned by the builder. -/
def waterBasisList : List Orbital :=
  [waterO1s,
   ⟨8, "2s", ![0, 0, 0.227], 0, 0, 0,
      ![0.3803890, 1.1695961, 5.0331513], d2s⟩,
   ⟨8, "2px", ![0, 0, 0.227], 1, 0, 0,
      ![0.3803890, 1.1695961, 5.0331513], d2p⟩,
   ⟨8, "2py", ![0, 0, 0.227], 0, 1, 0,
      ![0.3803890, 1.1695961, 5.0331513], d2p⟩,
   ⟨8, "2pz", ![0, 0, 0.227], 0, 0, 1,
      ![0.3803890, 1.1695961, 5.0331513], d2p⟩,
   waterH1s,
   ⟨1, "1s", ![0, -1.353, -0.908], 0, 0, 0,
      ![0.16885540, 0.62391373, 3.42525091], d1s⟩]

section BuilderLemmas

lemma orbsForAtom_H (Ri : Fin 3 → ℚ) :
    orbsForAtom "H" Ri =
      some [⟨1, "1s", Ri, 0, 0, 0,
              ![0.16885540, 0.62391373, 3.42525091], d1s⟩] := rfl

lemma orbsForAtom_O (Ri : Fin 3 → ℚ) :
    orbsForAtom "O" Ri =
      some [⟨8, "1s", Ri, 0, 0, 0,
              ![6.4436083, 23.8088610, 130.7093200], d1s⟩,
            ⟨8, "2s", Ri, 0, 0, 0,
              ![0.3803890, 1.1695961, 5.0331513], d2s⟩,
            ⟨8, "2px", Ri, 1, 0, 0,
              ![0.3803890, 1.1695961, 5.0331513], d2p⟩,
            ⟨8, "2py", Ri, 0, 1, 0,
              ![0.3803890, 1.1695961, 5.0331513], d2p⟩,
            ⟨8, "2pz", Ri, 0, 0, 1,
              ![0.3803890, 1.1695961, 5.0331513], d2p⟩] := rfl

lemma orbsForAtom_other (atom : String) (Ri : Fin 3 → ℚ)
    (hH : atom ≠ "H") (hO : atom ≠ "O") : orbsForAtom atom Ri = none := by
  simp [orbsForAtom, subshellsOf, hH, hO]

lemma buildAux_length : ∀ (atoms : List String) (i : ℕ)
    (R : List (Fin 3 → ℚ)) (b : List Orbital),
    buildAux atoms i R = some b →
    b.length = (atoms.map atomOrbCount).sum
  | [], _, _, b => by
      intro h
      simp only [buildAux, Option.some.injEq] at h
      simp [← h]
  | atom :: rest, i, R, b => by
      intro h
      simp only [buildAux, Option.bind_eq_some, Option.map_eq_some'] at h
      obtain ⟨Ri, _, os, hos, more, hmore, hb⟩ := h
      have hrest := buildAux_length rest (i + 1) R more hmore
      subst hb
      simp only [List.length_append, List.map_cons, List.sum_cons, hrest]
      congr 1
      by_cases hH : atom = "H"
      · subst hH
        rw [orbsForAtom_H] at hos
        simp only [Option.some.injEq] at hos
        simp [← hos, atomOrbCount]
      · by_cases hO : atom = "O"
        · subst hO
          rw [orbsForAtom_O] at hos
          simp only [Option.some.injEq] at hos
          simp [← hos, atomOrbCount]
        · rw [orbsForAtom_other atom Ri hH hO] at hos
          exact absurd hos (by simp)

end BuilderLemmas

/-- **C6** (amended).  For the water molecule `['O','H','H']` at the
program's coordinates, `build_sto3Gbasis` returns `K = 7` orbitals, in the
order (1s, 2s, 2px, 2py, 2pz on O, then 1s on each H), and `electronCount`
returns `N = 10`; in general `K` is the sum over the atoms of the
subshell-table orbital counts, which are 1 for `H` and **5** for `O`
(`1s`,`2s` and the three `2p` components), not 4. -/
theorem water_basis_size :
    ((build_sto3Gbasis ["O", "H", "H"] waterR).map fun p =>
        (p.1.map (·.o), p.1.map (·.Z), p.2)) =
      some (["1s", "2s", "2px", "2py", "2pz", "1s", "1s"],
        [8, 8, 8, 8, 8, 1, 1], 7) ∧
    electronCount ["O", "H", "H"] = some 10 ∧
    ∀ (atoms : List String) (R : List (Fin 3 → ℚ)) (b : List Orbital) (K : ℕ),
      build_sto3Gbasis atoms R = some (b, K) →
      K = (atoms.map atomOrbCount).sum := by
  refine ⟨rfl, rfl, ?_⟩
  intro atoms R b K h
  simp only [build_sto3Gbasis, Option.map_eq_some', Prod.mk.injEq] at h
  obtain ⟨b', hb', hb, hK⟩ := h
  subst hb
  exact hK ▸ buildAux_length atoms 0 R b' hb'

/-- Witness for `water_basis_size`: its general orbital-count invariant,
instantiated on the water molecule. -/
theorem water_basis_size_witness :
    (7 : ℕ) = (["O", "H", "H"].map atomOrbCount).sum :=
  water_basis_size.2.2 ["O", "H", "H"] waterR
    [⟨8, "1s", ![0, 0, 0.227], 0, 0, 0,
        ![6.4436083, 23.8088610, 130.7093200], d1s⟩,
     ⟨8, "2s", ![0, 0, 0.227], 0, 0, 0,
        ![0.3803890, 1.1695961, 5.0331513], d2s⟩,
     ⟨8, "2px", ![0, 0, 0.227], 1, 0, 0,
        ![0.3803890, 1.1695961, 5.0331513], d2p⟩,
     ⟨8, "2py", ![0, 0, 0.227], 0, 1, 0,
        ![0.3803890, 1.1695961, 5.0331513], d2p⟩,
     ⟨8, "2pz", ![0, 0, 0.227], 0, 0, 1,
        ![0.3803890, 1.1695961, 5.0331513], d2p⟩,
     ⟨1, "1s", ![0, 1.353, -0.908], 0, 0, 0,
        ![0.16885540, 0.62391373, 3.42525091], d1s⟩,
     ⟨1, "1s", ![0, -1.353, -0.908], 0, 0, 0,
        ![0.16885540, 0.62391373, 3.42525091], d1s⟩]
    7 rfl

/-- **C6**, counterexample to the claim as stated: the claim's per-atom
orbital count for oxygen is 4, but for the single atom `['O']` the builder
returns `K = 5`. -/
theorem oxygen_orbital_count :
    ((build_sto3Gbasis ["O"] [![0, 0, 0]]).map Prod.snd = some 5) ∧
      (5 : ℕ) ≠ 4 := by
  exact ⟨rfl, by decide⟩

section SCFLemmas

lemma scfStep_isSome {K : ℕ}
    (eigh : Matrix (Fin K) (Fin K) ℚ → Matrix (Fin K) (Fin K) ℚ)
    (Hcore X : Matrix (Fin K) (Fin K) ℚ)
    (G : Fin K → Fin K → Fin K → Fin K → ℚ) (N : ℕ) (h : N / 2 ≤ K)
    (D : Matrix (Fin K) (Fin K) ℚ) :
    (scfStep eigh Hcore X G N D).isSome := by
  simp [scfStep, h]

lemma scfGo_isSome {K : ℕ}
    (eigh : Matrix (Fin K) (Fin K) ℚ → Matrix (Fin K) (Fin K) ℚ)
    (Hcore X : Matrix (Fin K) (Fin K) ℚ)
    (G : Fin K → Fin K → Fin K → Fin K → ℚ) (N : ℕ) (h : N / 2 ≤ K) :
    ∀ (L : List ℕ) (D : Matrix (Fin K) (Fin K) ℚ) (Eel : ℚ) (count : ℕ),
    (scfGo eigh Hcore X G N L D Eel count).isSome
  | [], _, _, _ => by simp [scfGo]
  | iteration :: rest, D, Eel, count => by
      rw [scfGo]
      rcases hs : scfStep eigh Hcore X G N D with _ | ⟨Dn, Eeln⟩
      · exact absurd (scfStep_isSome eigh Hcore X G N h D) (by simp [hs])
      · dsimp only
        split
        · simp
        · exact scfGo_isSome eigh Hcore X G N h rest Dn Eeln (count + 1)

lemma scfGo_count_le {K : ℕ}
    (eigh : Matrix (Fin K) (Fin K) ℚ → Matrix (Fin K) (Fin K) ℚ)
    (Hcore X : Matrix (Fin K) (Fin K) ℚ)
    (G : Fin K → Fin K → Fin K → Fin K → ℚ) (N : ℕ) :
    ∀ (L : List ℕ) (D : Matrix (Fin K) (Fin K) ℚ) (Eel : ℚ)
      (count : ℕ) (e : ℚ) (c : ℕ),
    scfGo eigh Hcore X G N L D Eel count = some (e, c) →
    c ≤ count + L.length
  | [], _, _, count, e, c => by
      intro h
      simp only [scfGo, Option.some.injEq, Prod.mk.injEq] at h
      omega
  | iteration :: rest, D, Eel, count, e, c => by
      intro h
      rw [scfGo] at h
      rcases hs : scfStep eigh Hcore X G N D with _ | ⟨Dn, Eeln⟩ <;>
        rw [hs] at h
      · exact absurd h (by simp)
      · dsimp only at h
        split at h
        · simp only [Option.some.injEq, Prod.mk.injEq] at h
          simp only [List.length_cons]
          omega
        · have := scfGo_count_le eigh Hcore X G N rest Dn Eeln (count + 1)
            e c h
          simp only [List.length_cons]
          omega

end SCFLemmas


/-- **C1** (amended).  Whenever the occupied-orbital indices exist
(`int(N/2) ≤ K`), `compute_HFenergy` terminates without an exception —
also when the iteration cap is reached without convergence — and the
summary it prints is the last computed electronic energy plus `Vnn`
together with the iteration counter; the function itself returns Python's
`None`, so no energy, convergence flag or count reaches the caller as a
return value. -/
theorem compute_HFenergy_terminal {K : ℕ}
    (sqrtmInv eigh : Matrix (Fin K) (Fin K) ℚ → Matrix (Fin K) (Fin K) ℚ)
    (N : ℕ) (Vnn : ℚ) (S T V : Matrix (Fin K) (Fin K) ℚ)
    (G : Fin K → Fin K → Fin K → Fin K → ℚ) (h : N / 2 ≤ K) :
    ∃ e c, scfGo eigh (T + V) (sqrtmInv S) G N
        (List.range (scf_max_iter + 1)) 0 0 1 = some (e, c) ∧
      compute_HFenergyRun sqrtmInv eigh N Vnn S T V G = some (e + Vnn, c) ∧
      compute_HFenergyReturn sqrtmInv eigh N Vnn S T V G = some () := by
  have hsome := scfGo_isSome eigh (T + V) (sqrtmInv S) G N h
    (List.range (scf_max_iter + 1)) 0 0 1
  rcases hgo : scfGo eigh (T + V) (sqrtmInv S) G N
      (List.range (scf_max_iter + 1)) 0 0 1 with _ | ⟨e, c⟩
  · exact absurd hsome (by simp [hgo])
  · exact ⟨e, c, rfl,
      by simp [compute_HFenergyRun, hgo],
      by simp [compute_HFenergyReturn, compute_HFenergyRun, hgo]⟩

/-- Witness for `compute_HFenergy_terminal` at a concrete 1×1 input. -/
theorem compute_HFenergy_terminal_witness :
    ∃ e c, scfGo eighConst ((1 : Matrix (Fin 1) (Fin 1) ℚ) + 0)
        (eighConst 1) Gzero 2 (List.range (scf_max_iter + 1)) 0 0 1 =
        some (e, c) ∧
      compute_HFenergyRun eighConst eighConst 2 0 1 1 0 Gzero =
        some (e + 0, c) ∧
      compute_HFenergyReturn eighConst eighConst 2 0 1 1 0 Gzero =
        some () :=
  compute_HFenergy_terminal eighConst eighConst 2 0 1 1 0 Gzero
    (by decide)

/-- **C1**, counterexample to the claim as stated: `compute_HFenergy` has no
`return` statement, so two runs whose total energies differ (here the same
electronic problem with nuclear repulsion 0 and 1, printed totals 2 and 3)
hand the caller the same value `None` — the total energy, convergence flag
and iteration count are not returned. -/
theorem compute_HFenergy_return_carries_nothing :
    compute_HFenergyReturn eighConst eighConst 2 0 1 1 0 Gzero =
        compute_HFenergyReturn eighConst eighConst 2 1 1 1 0 Gzero ∧
      compute_HFenergyRun eighConst eighConst 2 0 1 1 0 Gzero =
        some (2, 2) ∧
      compute_HFenergyRun eighConst eighConst 2 1 1 1 0 Gzero =
        some (3, 2) ∧
      (2 : ℚ) ≠ 3 := by
  simp only [compute_HFenergyReturn, compute_HFenergyRun,
    show List.range (scf_max_iter + 1) =
      [0, 1, 2, 3, 4, 5, 6, 7, 8, 9, 10, 11, 12, 13, 14, 15, 16, 17, 18, 19,
        20] from rfl]
  norm_num [scfGo, scfStep, twoEP, buildD, EelOf, convergence, eighConst,
    Gzero, Matrix.mul_apply, Matrix.one_apply, Matrix.add_apply,
    Fin.sum_univ_one, Matrix.of_apply, Finset.filter_true_of_mem, abs]

/-- **C4** (amended).  The loop head is `range(scf_max_iter + 1)`, so the
body runs at most `scf_max_iter + 1 = 21` times and the printed iteration
counter (which starts at 1) never exceeds `scf_max_iter + 2 = 22`; the
bound 20 claimed for the counter does not hold. -/
theorem scf_iteration_cap {K : ℕ}
    (sqrtmInv eigh : Matrix (Fin K) (Fin K) ℚ → Matrix (Fin K) (Fin K) ℚ)
    (N : ℕ) (Vnn : ℚ) (S T V : Matrix (Fin K) (Fin K) ℚ)
    (G : Fin K → Fin K → Fin K → Fin K → ℚ) (e : ℚ) (c : ℕ)
    (h : compute_HFenergyRun sqrtmInv eigh N Vnn S T V G = some (e, c)) :
    c ≤ scf_max_iter + 2 := by
  simp only [compute_HFenergyRun, Option.map_eq_some'] at h
  obtain ⟨⟨e', c'⟩, hgo, hp⟩ := h
  have := scfGo_count_le eigh (T + V) (sqrtmInv S) G N
    (List.range (scf_max_iter + 1)) 0 0 1 e' c' hgo
  simp only [List.length_range] at this
  have hc : c' = c := by
    simpa using congrArg Prod.snd hp
  omega

/-- Witness for `scf_iteration_cap` at a concrete 1×1 input. -/
theorem scf_iteration_cap_witness : (2 : ℕ) ≤ scf_max_iter + 2 :=
  scf_iteration_cap eighConst eighConst 2 0 1 1 0 Gzero 2 2 (by
    rw [compute_HFenergyRun, show List.range (scf_max_iter + 1) =
      [0, 1, 2, 3, 4, 5, 6, 7, 8, 9, 10, 11, 12, 13, 14, 15, 16, 17, 18, 19,
        20] from rfl]
    norm_num [scfGo, scfStep, twoEP, buildD, EelOf, convergence, eighConst,
      Gzero, Matrix.mul_apply, Matrix.one_apply, Matrix.add_apply,
      Fin.sum_univ_one, Matrix.of_apply, Finset.filter_true_of_mem, abs])

set_option maxHeartbeats 3200000 in
/-- **C4**, counterexample to the claim as stated: a run that never meets
the convergence test executes the loop body 21 times and reports iteration
count 22 > 20 (the state of the 1×1 iteration cycles with period two and
its energy alternates between 10 and 16, so `|Eel − Eel_prev| = 6` stays
above the threshold). -/
theorem scf_iteration_count_22 :
    compute_HFenergyRun eighConst eighCycle 2 0 1 1 0 Gtwo =
        some (16, 22) ∧
      ¬ (22 : ℕ) ≤ scf_max_iter := by
  refine ⟨?_, by decide⟩
  rw [compute_HFenergyRun, show List.range (scf_max_iter + 1) =
    [0, 1, 2, 3, 4, 5, 6, 7, 8, 9, 10, 11, 12, 13, 14, 15, 16, 17, 18, 19,
      20] from rfl]
  norm_num [scfGo, scfStep, twoEP, buildD, EelOf, convergence, eighConst,
    eighCycle, Gtwo, Matrix.mul_apply, Matrix.one_apply, Matrix.add_apply,
    Fin.sum_univ_one, Matrix.of_apply, Finset.filter_true_of_mem, abs]

section TraceLemmas

lemma card_filter_val_lt (K t : ℕ) (h : t ≤ K) :
    (Finset.univ.filter fun a : Fin K => (a : ℕ) < t).card = t := by
  rw [Finset.card_filter,
    Fin.sum_univ_eq_sum_range (fun i => if i < t then 1 else 0) K,
    ← Finset.card_filter]
  have hr : (Finset.range K).filter (· < t) = Finset.range t := by
    ext x
    simp only [Finset.mem_filter, Finset.mem_range]
    omega
  rw [hr, Finset.card_range]

lemma trace_buildD {K : ℕ} (N : ℕ) (S X Cp : Matrix (Fin K) (Fin K) ℚ)
    (hX : Xᵀ * S * X = 1) (hCp : Cpᵀ * Cp = 1) (hKN : N / 2 ≤ K) :
    Matrix.trace (buildD N (X * Cp) * S) = 2 * ((N / 2 : ℕ) : ℚ) := by
  have hC : (X * Cp)ᵀ * S * (X * Cp) = 1 := by
    rw [Matrix.transpose_mul]
    have ha : Cpᵀ * Xᵀ * S * (X * Cp) = Cpᵀ * (Xᵀ * S * X) * Cp := by
      simp only [Matrix.mul_assoc]
    rw [ha, hX, Matrix.mul_one, hCp]
  set C := X * Cp with hCdef
  set occ := Finset.univ.filter (fun a : Fin K => (a : ℕ) < N / 2) with hocc
  have key : ∀ a : Fin K, (Cᵀ * S * C) a a =
      ∑ m : Fin K, ∑ n : Fin K, 2 * (C m a * C n a * S n m) / 2 := by
    intro a
    simp only [Matrix.mul_apply, Matrix.transpose_apply, Finset.sum_mul]
    refine Finset.sum_congr rfl fun m _ => Finset.sum_congr rfl fun n _ => ?_
    ring
  have h1 : Matrix.trace (buildD N C * S) =
      ∑ m : Fin K, ∑ n : Fin K, ∑ a ∈ occ, 2 * (C m a * C n a * S n m) := by
    simp only [Matrix.trace, Matrix.diag, Matrix.mul_apply, buildD,
      Matrix.of_apply, Finset.mul_sum, Finset.sum_mul]
    refine Finset.sum_congr rfl fun m _ => Finset.sum_congr rfl fun n _ =>
      Finset.sum_congr rfl fun a _ => ?_
    ring
  have h2 : (∑ m : Fin K, ∑ n : Fin K, ∑ a ∈ occ,
        2 * (C m a * C n a * S n m)) =
      ∑ a ∈ occ, ∑ m : Fin K, ∑ n : Fin K, 2 * (C m a * C n a * S n m) := by
    rw [Finset.sum_congr rfl fun m (_ : m ∈ Finset.univ) =>
      Finset.sum_comm (f := fun n a => 2 * (C m a * C n a * S n m))]
    exact Finset.sum_comm
  have h3 : (∑ a ∈ occ, ∑ m : Fin K, ∑ n : Fin K,
        2 * (C m a * C n a * S n m)) = ∑ a ∈ occ, (2 : ℚ) := by
    refine Finset.sum_congr rfl fun a _ => ?_
    have hk := key a
    rw [hC, Matrix.one_apply_eq] at hk
    have hhalf : (∑ m : Fin K, ∑ n : Fin K,
        2 * (C m a * C n a * S n m) / 2) = 1 := hk.symm
    calc (∑ m : Fin K, ∑ n : Fin K, 2 * (C m a * C n a * S n m))
        = 2 * ∑ m : Fin K, ∑ n : Fin K,
            2 * (C m a * C n a * S n m) / 2 := by
          rw [Finset.mul_sum]
          refine Finset.sum_congr rfl fun m _ => ?_
          rw [Finset.mul_sum]
          refine Finset.sum_congr rfl fun n _ => ?_
          ring
      _ = 2 := by rw [hhalf, mul_one]
  rw [h1, h2, h3, Finset.sum_const, hocc, card_filter_val_lt K (N / 2) hKN,
    nsmul_eq_mul, mul_comm]

end TraceLemmas

/-- **C7**.  After every density build of the SCF loop: if the
orthogonalization matrix satisfies the Löwdin property `Xᵀ·S·X = 1` (the
defining property of `S^(-1/2)` for a symmetric positive-definite overlap
matrix), the eigenvector oracle returns orthogonal matrices, `N` is even and
the occupied indices exist, then the density matrix built by `scfStep` from
the `N/2` occupied molecular-orbital columns satisfies `trace(D·S) = N`
exactly (hence within the claimed 1e-4). -/
theorem scf_density_trace {K : ℕ}
    (eigh : Matrix (Fin K) (Fin K) ℚ → Matrix (Fin K) (Fin K) ℚ)
    (Hcore X S : Matrix (Fin K) (Fin K) ℚ)
    (G : Fin K → Fin K → Fin K → Fin K → ℚ) (N : ℕ)
    (D Dn : Matrix (Fin K) (Fin K) ℚ) (E : ℚ)
    (hEven : N % 2 = 0) (hKN : N / 2 ≤ K)
    (hX : Xᵀ * S * X = 1)
    (hOrth : ∀ M : Matrix (Fin K) (Fin K) ℚ, (eigh M)ᵀ * eigh M = 1)
    (hs : scfStep eigh Hcore X G N D = some (Dn, E)) :
    Matrix.trace (Dn * S) = (N : ℚ) := by
  rw [scfStep, if_pos hKN] at hs
  simp only [Option.some.injEq, Prod.mk.injEq] at hs
  obtain ⟨hDn, -⟩ := hs
  rw [← hDn]
  rw [trace_buildD N S X (eigh (X * (Hcore + twoEP G D) * X)) hX
    (hOrth _) hKN]
  have h2 : 2 * (N / 2) = N := by omega
  exact_mod_cast congrArg (Nat.cast : ℕ → ℚ) h2

/-- Witness for `scf_density_trace` on the concrete 1×1 step with `N = 2`:
the built density has `trace(D·S) = 2`. -/
theorem scf_density_trace_witness :
    Matrix.trace
        ((buildD 2 ((1 : Matrix (Fin 1) (Fin 1) ℚ) *
            eighConst (1 * (1 + twoEP Gzero 0) * 1))) * 1) = (2 : ℚ) :=
  scf_density_trace eighConst 1 1 1 Gzero 2 0
    (buildD 2 (1 * eighConst (1 * (1 + twoEP Gzero 0) * 1)))
    (EelOf (buildD 2 (1 * eighConst (1 * (1 + twoEP Gzero 0) * 1))) 1
      (1 + twoEP Gzero 0))
    (by norm_num) (by norm_num) (by simp)
    (fun M => by simp [eighConst]) (by simp [scfStep])

/-- **C10** (amended).  For an odd electron count `N` whose occupied indices
exist (`int(N/2) ≤ K`), `compute_HFenergy` runs without raising and each
density build uses `int(N/2) = (N-1)/2` doubly-occupied columns — the same
density as for the even count `N - 1`, i.e. the odd electron is silently
dropped rather than an error being raised; for odd `N` with
`int(N/2) > K` the density build raises an `IndexError` instead (the
counterexample), so the claim does not hold for every odd `N`. -/
theorem odd_electron_dropped {K : ℕ}
    (sqrtmInv eigh : Matrix (Fin K) (Fin K) ℚ → Matrix (Fin K) (Fin K) ℚ)
    (N : ℕ) (Vnn : ℚ) (S T V : Matrix (Fin K) (Fin K) ℚ)
    (G : Fin K → Fin K → Fin K → Fin K → ℚ)
    (hodd : Odd N) (hKN : N / 2 ≤ K) :
    (compute_HFenergyRun sqrtmInv eigh N Vnn S T V G).isSome ∧
      ∀ C : Matrix (Fin K) (Fin K) ℚ, buildD N C = buildD (N - 1) C := by
  constructor
  · have := scfGo_isSome eigh (T + V) (sqrtmInv S) G N hKN
      (List.range (scf_max_iter + 1)) 0 0 1
    simpa [compute_HFenergyRun] using this
  · intro C
    have hhalf : N / 2 = (N - 1) / 2 := by
      obtain ⟨k, hk⟩ := hodd
      omega
    unfold buildD
    rw [hhalf]

/-- Witness for `odd_electron_dropped` at the concrete odd input `N = 1`,
`K = 1`. -/
theorem odd_electron_dropped_witness :
    (compute_HFenergyRun eighConst eighConst 1 0 1 1 0 Gzero).isSome ∧
      ∀ C : Matrix (Fin 1) (Fin 1) ℚ, buildD 1 C = buildD 0 C :=
  odd_electron_dropped eighConst eighConst 1 0 1 1 0 Gzero
    (by decide) (by decide)

/-- **C10**, counterexample to the claim as stated: for the odd electron
count `N = 5` with `K = 1` basis function, the density build indexes
molecular-orbital columns beyond the matrix (`int(5/2) = 2 > 1`), so the
run raises an `IndexError` (modelled `none`) instead of running without
error. -/
theorem odd_electron_five_raises :
    compute_HFenergyRun eighConst eighConst 5 0 1 1 0 Gzero = none ∧
      Odd 5 := by
  refine ⟨?_, by decide⟩
  rw [compute_HFenergyRun, show List.range (scf_max_iter + 1) =
    [0, 1, 2, 3, 4, 5, 6, 7, 8, 9, 10, 11, 12, 13, 14, 15, 16, 17, 18, 19,
      20] from rfl]
  simp [scfGo, scfStep]

section ShapeLemmas

lemma orbsForAtom_isSome (atom : String) (Ri : Fin 3 → ℚ)
    (h : atom = "H" ∨ atom = "O") : (orbsForAtom atom Ri).isSome := by
  rcases h with h | h <;> subst h
  · rw [orbsForAtom_H]; rfl
  · rw [orbsForAtom_O]; rfl

lemma buildAux_isSome_iff : ∀ (atoms : List String) (i : ℕ)
    (R : List (Fin 3 → ℚ)), (∀ a ∈ atoms, a = "H" ∨ a = "O") →
    ((buildAux atoms i R).isSome ↔
      atoms = [] ∨ i + atoms.length ≤ R.length)
  | [], i, R => by simp [buildAux]
  | atom :: rest, i, R => by
      intro hval
      rw [buildAux]
      rcases hR : R.get? i with _ | Ri
      · have hlen : R.length ≤ i := List.get?_eq_none.mp hR
        simp only [Option.bind_eq_bind, Option.none_bind, Option.isSome_none]
        constructor
        · intro h; exact absurd h (by simp)
        · rintro (h | h)
          · exact absurd h (by simp)
          · exfalso
            simp only [List.length_cons] at h
            omega
      · have hi : i < R.length := List.get?_eq_some.mp hR |>.1
        simp only [Option.bind_eq_bind, Option.some_bind]
        rcases hos : orbsForAtom atom Ri with _ | os
        · exact absurd (orbsForAtom_isSome atom Ri
            (hval atom (List.mem_cons_self _ _))) (by simp [hos])
        · simp only [Option.some_bind, Option.isSome_map']
          rw [buildAux_isSome_iff rest (i + 1) R
            (fun a ha => hval a (List.mem_cons_of_mem _ ha))]
          simp only [List.length_cons]
          constructor
          · rintro (h | h)
            · subst h; right; simpa using hi
            · right; omega
          · rintro (h | h)
            · exact absurd h (by simp)
            · rcases rest with _ | ⟨r, rs⟩
              · exact Or.inl rfl
              · right; simp only [List.length_cons] at h ⊢; omega

end ShapeLemmas

/-- **C8** (amended).  The program performs no input-shape validation and
has no `InputShapeError`: for supported element symbols, a run of
`build_sto3Gbasis` succeeds exactly when the coordinate list is at least as
long as the symbol list — in particular a *longer* coordinate list (a shape
mismatch) builds the basis without any error, and a too-short coordinate
list fails only during basis construction, at the missing index lookup
`R[i]`, not at an up-front validation step. -/
theorem no_input_shape_validation (atoms : List String)
    (R : List (Fin 3 → ℚ)) (hval : ∀ a ∈ atoms, a = "H" ∨ a = "O") :
    (build_sto3Gbasis atoms R).isSome ↔ atoms.length ≤ R.length := by
  rw [build_sto3Gbasis, Option.isSome_map']
  rw [buildAux_isSome_iff atoms 0 R hval]
  constructor
  · rintro (h | h)
    · simp [h]
    · omega
  · intro h
    right
    omega

/-- Witness for `no_input_shape_validation`: one atom, two coordinates. -/
theorem no_input_shape_validation_witness :
    (build_sto3Gbasis ["H"] [![0, 0, 0], ![1, 0, 0]]).isSome ↔
      (["H"] : List String).length ≤
        ([![0, 0, 0], ![1, 0, 0]] : List (Fin 3 → ℚ)).length :=
  no_input_shape_validation ["H"] [![0, 0, 0], ![1, 0, 0]]
    (by intro a ha; simp only [List.mem_singleton] at ha; exact Or.inl ha)

/-- **C8**, counterexample to the claim as stated: the input `['H']` with
*two* coordinate rows has mismatched list lengths, yet the run does not
fail at input validation (or at all) — the basis is built and the extra
coordinate is silently ignored. -/
theorem mismatched_shape_succeeds :
    build_sto3Gbasis ["H"] [![0, 0, 0], ![1, 0, 0]] =
        some ([⟨1, "1s", ![0, 0, 0], 0, 0, 0,
          ![0.16885540, 0.62391373, 3.42525091], d1s⟩], 1) ∧
      (["H"] : List String).length ≠
        ([![0, 0, 0], ![1, 0, 0]] : List (Fin 3 → ℚ)).length := by
  exact ⟨rfl, by decide⟩

/-- **C3**.  `BoysFunction` returns the series value
`1/(2ν+1) − x/(2ν+3)` exactly for `x < 1e-7` (that threshold and no
other), otherwise `0.5·x^(−(ν+0.5))·Γ(ν+0.5)·P(ν+0.5,x)` with `P` the
regularized lower incomplete gamma function; in particular
`BoysFunction 0 0 = 1` exactly. -/
theorem boysFunction_branches (nu x : ℝ) :
    (x < 1e-7 →
      BoysFunction nu x = 1 / (2 * nu + 1) - x / (2 * nu + 3)) ∧
    (1e-7 ≤ x →
      BoysFunction nu x = 0.5 * Real.rpow x (-(nu + 0.5)) *
        Real.Gamma (nu + 0.5) * gammainc (nu + 0.5) x) ∧
    BoysFunction 0 0 = 1 := by
  refine ⟨fun h => ?_, fun h => ?_, ?_⟩
  · rw [BoysFunction, if_pos h, inv_eq_one_div, inv_eq_one_div]
    ring
  · rw [BoysFunction, if_neg (not_lt.mpr h)]
    norm_num
  · rw [BoysFunction, if_pos (by norm_num : (0 : ℝ) < 1e-7)]
    norm_num

/-- Witness for `boysFunction_branches`: the series branch taken at the
concrete point `(ν,x) = (0,0)` evaluates to 1. -/
theorem boysFunction_branches_witness :
    (0 : ℝ) < 1e-7 ∧
      BoysFunction 0 0 = 1 / (2 * 0 + 1) - 0 / (2 * 0 + 3) :=
  ⟨by norm_num, (boysFunction_branches 0 0).1 (by norm_num)⟩

lemma IJsq_nonneg (RI RJ : Fin 3 → ℝ) : 0 ≤ IJsq RI RJ :=
  Finset.sum_nonneg fun _ _ => sq_nonneg _

/-- **C2** (amended).  In the nuclear-attraction integral, for every orbital
pair, nucleus, primitive pair and index triple, the Boys-function factor of
the accumulated term is evaluated at order `ν = l+m+n−2(r+s+t)−(i+j+k)` and
argument `x = g·|RP−RC|²` — `g` times the *squared* distance between the
product center and the nucleus (the source's redundant absolute value
dropped, the squared distance being a sum of squares), not `g` times the
distance. -/
theorem vxyz_boys_argument (Fb : ℝ → ℝ → ℝ) (lA mA nA lB mB nB : ℕ)
    (a b : ℝ) (RA RB RC : Fin 3 → ℝ) :
    VxyzLoop Fb lA mA nA lB mB nB a b RA RB RC =
      VxyzLoopSpecSq Fb lA mA nA lB mB nB a b RA RB RC ∧
    ∀ Z : ℝ, Vxyz lA mA nA lB mB nB a b RA RB RC Z =
      VxyzLoopSpecSq BoysFunction lA mA nA lB mB nB a b RA RB RC *
        (2 * Real.pi / (a + b)) *
        Real.exp (-(a * b * IJsq RA RB) / (a + b)) *
        Nnorm a lA mA nA * Nnorm b lB mB nB * (-Z) := by
  have habs := abs_of_nonneg (IJsq_nonneg (gaussianProduct a RA b RB (a + b)) RC)
  constructor
  · simp only [VxyzLoop, VxyzLoopSpecSq, habs]
  · intro Z
    rw [Vxyz]
    simp only [VxyzLoop, VxyzLoopSpecSq, habs,
      abs_of_nonneg (IJsq_nonneg RA RB)]

/-- **C2**, counterexample to the claim as stated: with the Boys evaluator
abstracted to the argument projection, the accumulated loop value of the
source (`x = g·|RP−RC|²`, here `1·4 = 4`) differs from the value prescribed
by the claim's `x = g·|RP−RC|` (here `1·2 = 2`) at the concrete input
`lA=…=nB=0`, `a = b = 1/2`, `RA = RB = 0`, `RC = (0,0,2)` — so the Boys
factor is not evaluated at `g` times the distance. -/
theorem vxyz_boys_argument_not_distance :
    VxyzLoop (fun _ x => x) 0 0 0 0 0 0 (1 / 2) (1 / 2)
        (fun _ => 0) (fun _ => 0) ![0, 0, 2] ≠
      VxyzLoopSpecDist (fun _ x => x) 0 0 0 0 0 0 (1 / 2) (1 / 2)
        (fun _ => 0) (fun _ => 0) ![0, 0, 2] := by
  have hPC : IJsq (gaussianProduct (1 / 2) (fun _ => 0) (1 / 2)
      (fun _ => 0) (1 / 2 + 1 / 2)) ![0, 0, 2] = 4 := by
    simp only [IJsq, gaussianProduct, Fin.sum_univ_three]
    norm_num
  have hvi : vi 0 0 0 0 0 0 0 (![0, 0, 2] 0) 0 (1 / 2 + 1 / 2) = 1 := by
    simp only [vi, ck, Finset.sum_range_succ]
    norm_num
  have hL : VxyzLoop (fun _ x => x) 0 0 0 0 0 0 (1 / 2) (1 / 2)
      (fun _ => 0) (fun _ => 0) ![0, 0, 2] = 4 := by
    simp only [VxyzLoop, hPC, Finset.sum_range_succ, Finset.sum_range_zero]
    simp only [vi, ck, Finset.sum_range_succ]
    norm_num [gaussianProduct]
  have hR : VxyzLoopSpecDist (fun _ x => x) 0 0 0 0 0 0 (1 / 2) (1 / 2)
      (fun _ => 0) (fun _ => 0) ![0, 0, 2] = 2 := by
    simp only [VxyzLoopSpecDist, hPC, Finset.sum_range_succ,
      Finset.sum_range_zero]
    simp only [vi, ck, Finset.sum_range_succ]
    rw [show (4 : ℝ) = 2 ^ 2 by norm_num,
      Real.sqrt_sq (by norm_num : (0 : ℝ) ≤ 2)]
    norm_num [gaussianProduct]
  rw [hL, hR]
  norm_num

/-- **C9**.  In the kinetic-energy integral, for every primitive pair and
every angular-momentum triple of the second orbital with `l+m+n ∈ {0,1}`,
each accumulated term of `Kxyz` whose shifted angular-momentum argument is
negative (`lB−2` when `lB < 2`, and likewise for `mB`, `nB`) is exactly
zero — the binomial weight `lB·(lB−1)` vanishes there, no separate code
path being needed. -/
theorem kinetic_negative_shift_zero (RA RB : Fin 3 → ℝ) (a b : ℝ)
    (lA lB mA mB nA nB : ℤ)
    (hl : 0 ≤ lB) (hm : 0 ≤ mB) (hn : 0 ≤ nB) (hsum : lB + mB + nB ≤ 1) :
    1 / 2 * ((lB * (lB - 1) : ℤ) : ℝ) *
        Sxyz RA RB a b lA (lB - 2) mA mB nA nB = 0 ∧
      1 / 2 * ((mB * (mB - 1) : ℤ) : ℝ) *
        Sxyz RA RB a b lA lB mA (mB - 2) nA nB = 0 ∧
      1 / 2 * ((nB * (nB - 1) : ℤ) : ℝ) *
        Sxyz RA RB a b lA lB mA mB nA (nB - 2) = 0 := by
  have hz : ∀ c : ℤ, 0 ≤ c → c ≤ 1 → c * (c - 1) = 0 := by
    intro c h0 h1
    rcases (by omega : c = 0 ∨ c = 1) with h | h <;> simp [h]
  refine ⟨?_, ?_, ?_⟩
  · rw [hz lB hl (by omega)]; simp
  · rw [hz mB hm (by omega)]; simp
  · rw [hz nB hn (by omega)]; simp

/-- Witness for `kinetic_negative_shift_zero` at the concrete all-`s`
angular momenta `lB = mB = nB = 0`. -/
theorem kinetic_negative_shift_zero_witness :
    1 / 2 * (((0 : ℤ) * (0 - 1) : ℤ) : ℝ) *
        Sxyz (fun _ => 0) (fun _ => 0) 1 1 0 (0 - 2) 0 0 0 0 = 0 ∧
      1 / 2 * (((0 : ℤ) * (0 - 1) : ℤ) : ℝ) *
        Sxyz (fun _ => 0) (fun _ => 0) 1 1 0 0 0 (0 - 2) 0 0 = 0 ∧
      1 / 2 * (((0 : ℤ) * (0 - 1) : ℤ) : ℝ) *
        Sxyz (fun _ => 0) (fun _ => 0) 1 1 0 0 0 0 0 (0 - 2) = 0 :=
  kinetic_negative_shift_zero (fun _ => 0) (fun _ => 0) 1 1 0 0 0 0 0 0
    (by decide) (by decide) (by decide) (by decide)

section SymmetryLemmas

lemma ck_sym (j : ℕ) (l m : ℤ) (a b : ℝ) : ck j l m a b = ck j m l b a := by
  rw [ck, ck, Finset.sum_comm]
  refine Finset.sum_congr rfl fun i _ => Finset.sum_congr rfl fun k _ => ?_
  by_cases h : (k : ℤ) + (i : ℤ) = (j : ℤ)
  · rw [if_pos h, if_pos (by omega : (i : ℤ) + (k : ℤ) = (j : ℤ))]
    ring
  · rw [if_neg h, if_neg (by omega : ¬ (i : ℤ) + (k : ℤ) = (j : ℤ))]

lemma si_sym (lA lB : ℤ) (g Ai Bi Pi : ℝ) :
    si lA lB g Ai Bi Pi = si lB lA g Bi Ai Pi := by
  rw [si, si, add_comm lB lA]
  refine congrArg (· * Real.sqrt (Real.pi / g)) ?_
  refine Finset.sum_congr rfl fun j _ => ?_
  rw [ck_sym]

lemma gaussianProduct_comm (a : ℝ) (RA : Fin 3 → ℝ) (b : ℝ)
    (RB : Fin 3 → ℝ) (g : ℝ) :
    gaussianProduct a RA b RB g = gaussianProduct b RB a RA g := by
  funext i
  simp only [gaussianProduct]
  ring_nf

lemma IJsq_comm (RI RJ : Fin 3 → ℝ) : IJsq RI RJ = IJsq RJ RI := by
  simp only [IJsq]
  refine Finset.sum_congr rfl fun i _ => ?_
  ring

lemma Sxyz_sym (RA RB : Fin 3 → ℝ) (a b : ℝ) (lA lB mA mB nA nB : ℤ) :
    Sxyz RA RB a b lA lB mA mB nA nB = Sxyz RB RA b a lB lA mB mA nB nA := by
  simp only [Sxyz]
  rw [add_comm b a, ← gaussianProduct_comm a RA b RB (a + b),
    si_sym lA lB (a + b) (RA 0) (RB 0),
    si_sym mA mB (a + b) (RA 1) (RB 1),
    si_sym nA nB (a + b) (RA 2) (RB 2)]

lemma Sab_sym (bA bB : Orbital) : Sab bA bB = Sab bB bA := by
  rw [Sab, Sab, Finset.sum_comm]
  refine Finset.sum_congr rfl fun j _ => Finset.sum_congr rfl fun i _ => ?_
  rw [IJsq_comm (rv bB.R) (rv bA.R),
    Sxyz_sym (rv bB.R) (rv bA.R) (bB.a j : ℝ) (bA.a i : ℝ)]
  have hexp : (-(bB.a j : ℝ) * (bA.a i : ℝ) * IJsq (rv bA.R) (rv bB.R)
      / ((bB.a j : ℝ) + (bA.a i : ℝ))) =
      (-(bA.a i : ℝ) * (bB.a j : ℝ) * IJsq (rv bA.R) (rv bB.R)
      / ((bA.a i : ℝ) + (bB.a j : ℝ))) := by
    rw [add_comm (bB.a j : ℝ) (bA.a i : ℝ)]
    ring_nf
  rw [hexp]
  ring

end SymmetryLemmas

section KineticSymmetry

lemma si_eval_00 (g Ai Bi Pi : ℝ) :
    si 0 0 g Ai Bi Pi = Real.sqrt (Real.pi / g) := by
  simp only [si, ck, fact2, fact2N]
  norm_num

lemma si_eval_01 (g Ai Bi Pi : ℝ) :
    si 0 1 g Ai Bi Pi = (Pi - Bi) * Real.sqrt (Real.pi / g) := by
  rw [si]
  refine congrArg (· * Real.sqrt (Real.pi / g)) ?_
  norm_num [show (Int.tdiv 1 2 + 1).toNat = 1 by decide,
    show Int.toNat 2 = 2 by decide, ck, fact2, fact2N,
    Finset.sum_range_succ]

lemma si_eval_11 (g Ai Bi Pi : ℝ) :
    si 1 1 g Ai Bi Pi =
      ((Pi - Ai) * (Pi - Bi) + 1 / (2 * g)) * Real.sqrt (Real.pi / g) := by
  rw [si]
  refine congrArg (· * Real.sqrt (Real.pi / g)) ?_
  norm_num [show (Int.tdiv 2 2 + 1).toNat = 2 by decide,
    show Int.toNat 2 = 2 by decide, ck, fact2, fact2N,
    Finset.sum_range_succ]

lemma si_eval_03 (g Ai Bi Pi : ℝ) :
    si 0 3 g Ai Bi Pi =
      ((Pi - Bi) ^ 3 + 3 * (Pi - Bi) / (2 * g)) * Real.sqrt (Real.pi / g) := by
  rw [si]
  refine congrArg (· * Real.sqrt (Real.pi / g)) ?_
  norm_num [show (Int.tdiv 3 2 + 1).toNat = 2 by decide,
    show Int.toNat 4 = 4 by decide, show Int.toNat 1 = 1 by decide,
    show Int.toNat 3 = 3 by decide,
    ck, fact2, fact2N, Finset.sum_range_succ]

lemma si_eval_13 (g Ai Bi Pi : ℝ) :
    si 1 3 g Ai Bi Pi =
      ((Pi - Ai) * (Pi - Bi) ^ 3 +
        (3 * (Pi - Ai) * (Pi - Bi) + 3 * (Pi - Bi) ^ 2) / (2 * g) +
        3 / (2 * g * (2 * g))) * Real.sqrt (Real.pi / g) := by
  rw [si]
  refine congrArg (· * Real.sqrt (Real.pi / g)) ?_
  norm_num [show (Int.tdiv 4 2 + 1).toNat = 3 by decide,
    show Int.toNat 2 = 2 by decide, show Int.toNat 4 = 4 by decide,
    show Int.toNat 3 = 3 by decide,
    ck, fact2, fact2N, Finset.sum_range_succ]
  ring

lemma si_eval_10 (g Ai Bi Pi : ℝ) :
    si 1 0 g Ai Bi Pi = (Pi - Ai) * Real.sqrt (Real.pi / g) := by
  rw [si]
  refine congrArg (· * Real.sqrt (Real.pi / g)) ?_
  norm_num [show (Int.tdiv 1 2 + 1).toNat = 1 by decide,
    show Int.toNat 2 = 2 by decide, ck, fact2, fact2N,
    Finset.sum_range_succ]

lemma si_eval_02 (g Ai Bi Pi : ℝ) :
    si 0 2 g Ai Bi Pi =
      ((Pi - Bi) ^ 2 + 1 / (2 * g)) * Real.sqrt (Real.pi / g) := by
  rw [si]
  refine congrArg (· * Real.sqrt (Real.pi / g)) ?_
  norm_num [show (Int.tdiv 2 2 + 1).toNat = 2 by decide,
    show Int.toNat 2 = 2 by decide, show Int.toNat 3 = 3 by decide,
    ck, fact2, fact2N, Finset.sum_range_succ]

lemma si_eval_12 (g Ai Bi Pi : ℝ) :
    si 1 2 g Ai Bi Pi =
      ((Pi - Ai) * (Pi - Bi) ^ 2 +
        ((Pi - Ai) + 2 * (Pi - Bi)) / (2 * g)) * Real.sqrt (Real.pi / g) := by
  rw [si]
  refine congrArg (· * Real.sqrt (Real.pi / g)) ?_
  norm_num [show (Int.tdiv 3 2 + 1).toNat = 2 by decide,
    show Int.toNat 2 = 2 by decide, show Int.toNat 3 = 3 by decide,
    ck, fact2, fact2N, Finset.sum_range_succ]


lemma Kxyz_split (RA RB : Fin 3 → ℝ) (a b : ℝ) (lA lB mA mB nA nB : ℤ) :
    Kxyz RA RB a b lA lB mA mB nA nB =
      kin1 lA lB a b (RA 0) (RB 0) *
          si mA mB (a + b) (RA 1) (RB 1)
            ((a * RA 1 + b * RB 1) / (a + b)) *
          si nA nB (a + b) (RA 2) (RB 2)
            ((a * RA 2 + b * RB 2) / (a + b)) +
        si lA lB (a + b) (RA 0) (RB 0)
            ((a * RA 0 + b * RB 0) / (a + b)) *
          kin1 mA mB a b (RA 1) (RB 1) *
          si nA nB (a + b) (RA 2) (RB 2)
            ((a * RA 2 + b * RB 2) / (a + b)) +
        si lA lB (a + b) (RA 0) (RB 0)
            ((a * RA 0 + b * RB 0) / (a + b)) *
          si mA mB (a + b) (RA 1) (RB 1)
            ((a * RA 1 + b * RB 1) / (a + b)) *
          kin1 nA nB a b (RA 2) (RB 2) := by
  simp only [Kxyz, Sxyz, kin1, gaussianProduct]
  push_cast
  ring

lemma kin1_sym00 (a b Ai Bi : ℝ) (hg : a + b ≠ 0) :
    kin1 0 0 a b Ai Bi = kin1 0 0 b a Bi Ai := by
  simp only [kin1]
  rw [add_comm b a]
  norm_num
  rw [si_eval_00, si_eval_02, si_eval_00, si_eval_02]
  have key : b - 2 * b ^ 2 *
        (((a * Ai + b * Bi) / (a + b) - Bi) ^ 2 + 1 / (2 * (a + b))) =
      a - 2 * a ^ 2 *
        (((b * Bi + a * Ai) / (a + b) - Ai) ^ 2 + 1 / (2 * (a + b))) := by
    field_simp
    ring
  linear_combination key * Real.sqrt (Real.pi / (a + b))

lemma kin1_sym01 (a b Ai Bi : ℝ) (hg : a + b ≠ 0) :
    kin1 0 1 a b Ai Bi = kin1 1 0 b a Bi Ai := by
  simp only [kin1]
  rw [add_comm b a]
  norm_num
  rw [si_eval_01, si_eval_03, si_eval_10, si_eval_12]
  have key : 3 * b * ((a * Ai + b * Bi) / (a + b) - Bi) -
        2 * b ^ 2 * (((a * Ai + b * Bi) / (a + b) - Bi) ^ 3 +
          3 * ((a * Ai + b * Bi) / (a + b) - Bi) / (2 * (a + b))) =
      a * ((b * Bi + a * Ai) / (a + b) - Bi) -
        2 * a ^ 2 * (((b * Bi + a * Ai) / (a + b) - Bi) *
            ((b * Bi + a * Ai) / (a + b) - Ai) ^ 2 +
          (((b * Bi + a * Ai) / (a + b) - Bi) +
            2 * ((b * Bi + a * Ai) / (a + b) - Ai)) / (2 * (a + b))) := by
    field_simp
    ring
  linear_combination key * Real.sqrt (Real.pi / (a + b))

lemma kin1_sym11 (a b Ai Bi : ℝ) (hg : a + b ≠ 0) :
    kin1 1 1 a b Ai Bi = kin1 1 1 b a Bi Ai := by
  simp only [kin1]
  rw [add_comm b a]
  norm_num
  rw [si_eval_11, si_eval_13, si_eval_11, si_eval_13]
  have key : 3 * b * (((a * Ai + b * Bi) / (a + b) - Ai) *
          ((a * Ai + b * Bi) / (a + b) - Bi) + 1 / (2 * (a + b))) -
        2 * b ^ 2 * (((a * Ai + b * Bi) / (a + b) - Ai) *
            ((a * Ai + b * Bi) / (a + b) - Bi) ^ 3 +
          (3 * ((a * Ai + b * Bi) / (a + b) - Ai) *
              ((a * Ai + b * Bi) / (a + b) - Bi) +
            3 * ((a * Ai + b * Bi) / (a + b) - Bi) ^ 2) / (2 * (a + b)) +
          3 / (2 * (a + b) * (2 * (a + b)))) =
      3 * a * (((b * Bi + a * Ai) / (a + b) - Bi) *
          ((b * Bi + a * Ai) / (a + b) - Ai) + 1 / (2 * (a + b))) -
        2 * a ^ 2 * (((b * Bi + a * Ai) / (a + b) - Bi) *
            ((b * Bi + a * Ai) / (a + b) - Ai) ^ 3 +
          (3 * ((b * Bi + a * Ai) / (a + b) - Bi) *
              ((b * Bi + a * Ai) / (a + b) - Ai) +
            3 * ((b * Bi + a * Ai) / (a + b) - Ai) ^ 2) / (2 * (a + b)) +
          3 / (2 * (a + b) * (2 * (a + b)))) := by
    field_simp
    ring
  linear_combination key * Real.sqrt (Real.pi / (a + b))

lemma kin1_sym (lA lB : ℤ) (a b Ai Bi : ℝ) (hg : a + b ≠ 0)
    (h1 : 0 ≤ lA) (h2 : lA ≤ 1) (h3 : 0 ≤ lB) (h4 : lB ≤ 1) :
    kin1 lA lB a b Ai Bi = kin1 lB lA b a Bi Ai := by
  have hg2 : b + a ≠ 0 := by rwa [add_comm]
  rcases (by omega : lA = 0 ∨ lA = 1) with hA | hA <;> subst hA <;>
    rcases (by omega : lB = 0 ∨ lB = 1) with hB | hB <;> subst hB
  · exact kin1_sym00 a b Ai Bi hg
  · exact kin1_sym01 a b Ai Bi hg
  · exact (kin1_sym01 b a Bi Ai hg2).symm
  · exact kin1_sym11 a b Ai Bi hg

lemma Kxyz_sym (RA RB : Fin 3 → ℝ) (a b : ℝ) (lA lB mA mB nA nB : ℤ)
    (hg : a + b ≠ 0)
    (e1 : 0 ≤ lA) (e2 : lA ≤ 1) (e3 : 0 ≤ mA) (e4 : mA ≤ 1)
    (e5 : 0 ≤ nA) (e6 : nA ≤ 1)
    (f1 : 0 ≤ lB) (f2 : lB ≤ 1) (f3 : 0 ≤ mB) (f4 : mB ≤ 1)
    (f5 : 0 ≤ nB) (f6 : nB ≤ 1) :
    Kxyz RA RB a b lA lB mA mB nA nB = Kxyz RB RA b a lB lA mB mA nB nA := by
  rw [Kxyz_split, Kxyz_split, add_comm b a,
    add_comm (b * RB 0) (a * RA 0), add_comm (b * RB 1) (a * RA 1),
    add_comm (b * RB 2) (a * RA 2),
    ← kin1_sym lA lB a b (RA 0) (RB 0) hg e1 e2 f1 f2,
    ← kin1_sym mA mB a b (RA 1) (RB 1) hg e3 e4 f3 f4,
    ← kin1_sym nA nB a b (RA 2) (RB 2) hg e5 e6 f5 f6]
  rw [si_sym lB lA (a + b) (RB 0) (RA 0) ((a * RA 0 + b * RB 0) / (a + b))]
  rw [si_sym mB mA (a + b) (RB 1) (RA 1) ((a * RA 1 + b * RB 1) / (a + b))]
  rw [si_sym nB nA (a + b) (RB 2) (RA 2) ((a * RA 2 + b * RB 2) / (a + b))]

end KineticSymmetry

lemma Tab_sym (bA bB : Orbital)
    (hAl : bA.l ≤ 1) (hAm : bA.m ≤ 1) (hAn : bA.n ≤ 1)
    (hBl : bB.l ≤ 1) (hBm : bB.m ≤ 1) (hBn : bB.n ≤ 1)
    (hpA : ∀ i, 0 < bA.a i) (hpB : ∀ i, 0 < bB.a i) :
    Tab bA bB = Tab bB bA := by
  rw [Tab, Tab, Finset.sum_comm]
  refine Finset.sum_congr rfl fun j _ => Finset.sum_congr rfl fun i _ => ?_
  have h1 : (0 : ℝ) < ((bA.a i : ℚ) : ℝ) := by exact_mod_cast hpA i
  have h2 : (0 : ℝ) < ((bB.a j : ℚ) : ℝ) := by exact_mod_cast hpB j
  have hg : ((bB.a j : ℚ) : ℝ) + ((bA.a i : ℚ) : ℝ) ≠ 0 :=
    ne_of_gt (by linarith)
  rw [IJsq_comm (rv bB.R) (rv bA.R),
    Kxyz_sym (rv bB.R) (rv bA.R) ((bB.a j : ℚ) : ℝ) ((bA.a i : ℚ) : ℝ)
      (bB.l : ℤ) (bA.l : ℤ) (bB.m : ℤ) (bA.m : ℤ) (bB.n : ℤ) (bA.n : ℤ) hg
      (Int.ofNat_nonneg _) (by exact_mod_cast hBl)
      (Int.ofNat_nonneg _) (by exact_mod_cast hBm)
      (Int.ofNat_nonneg _) (by exact_mod_cast hBn)
      (Int.ofNat_nonneg _) (by exact_mod_cast hAl)
      (Int.ofNat_nonneg _) (by exact_mod_cast hAm)
      (Int.ofNat_nonneg _) (by exact_mod_cast hAn)]
  have hexp : (-((bB.a j : ℚ) : ℝ) * ((bA.a i : ℚ) : ℝ) *
      IJsq (rv bA.R) (rv bB.R) / (((bB.a j : ℚ) : ℝ) + ((bA.a i : ℚ) : ℝ))) =
      (-((bA.a i : ℚ) : ℝ) * ((bB.a j : ℚ) : ℝ) *
      IJsq (rv bA.R) (rv bB.R) /
        (((bA.a i : ℚ) : ℝ) + ((bB.a j : ℚ) : ℝ))) := by
    rw [add_comm ((bB.a j : ℚ) : ℝ) ((bA.a i : ℚ) : ℝ)]
    ring_nf
  rw [hexp]
  ring

section GSymmetry

lemma theta_sym (l : ℕ) (lA lB : ℕ) (PA PB : ℝ) (r : ℕ) (g : ℝ) :
    theta l lA lB PA PB r g = theta l lB lA PB PA r g := by
  rw [theta, theta, ck_sym]

lemma gi_symAB (l lp r rp i : ℕ) (lA lB : ℕ) (Ai Bi Pi gP : ℝ)
    (lC lD : ℕ) (Ci Di Qi gQ : ℝ) :
    gi l lp r rp i lB lA Bi Ai Pi gP lC lD Ci Di Qi gQ =
      gi l lp r rp i lA lB Ai Bi Pi gP lC lD Ci Di Qi gQ := by
  simp only [gi]
  rw [theta_sym l lB lA (Pi - Bi) (Pi - Ai) r gP]

lemma gi_symCD (l lp r rp i : ℕ) (lA lB : ℕ) (Ai Bi Pi gP : ℝ)
    (lC lD : ℕ) (Ci Di Qi gQ : ℝ) :
    gi l lp r rp i lA lB Ai Bi Pi gP lD lC Di Ci Qi gQ =
      gi l lp r rp i lA lB Ai Bi Pi gP lC lD Ci Di Qi gQ := by
  simp only [gi]
  rw [theta_sym lp lD lC (Qi - Di) (Qi - Ci) rp gQ]

lemma gi_symPair (l lp r rp i : ℕ) (lA lB : ℕ) (Ai Bi Pi gP : ℝ)
    (lC lD : ℕ) (Ci Di Qi gQ : ℝ)
    (hr : 2 * r ≤ l) (hrp : 2 * rp ≤ lp)
    (hi : 2 * i ≤ l + lp - 2 * r - 2 * rp) :
    gi lp l rp r i lC lD Ci Di Qi gQ lA lB Ai Bi Pi gP =
      gi l lp r rp i lA lB Ai Bi Pi gP lC lD Ci Di Qi gQ := by
  simp only [gi]
  rw [add_comm (1 / (4 * gQ)) (1 / (4 * gP)),
    show lp + l - 2 * rp - 2 * r = l + lp - 2 * r - 2 * rp by omega,
    show lp + l - 2 * (rp + r + i) = l + lp - 2 * (r + rp + i) by omega,
    show 2 * (rp + r) = 2 * (r + rp) by omega,
    show lp + l = l + lp by omega,
    show Qi - Pi = -(Pi - Qi) by ring,
    neg_pow (Pi - Qi) (l + lp - 2 * (r + rp + i))]
  have hpar : (-1 : ℝ) ^ lp * (-1 : ℝ) ^ (l + lp - 2 * (r + rp + i)) =
      (-1 : ℝ) ^ l := by
    rw [← pow_add, neg_one_pow_eq_pow_mod_two,
      neg_one_pow_eq_pow_mod_two (n := l)]
    congr 1
    omega
  rw [← hpar]
  ring

lemma sum5_swap {M : Type} [AddCommMonoid M] (A B : ℕ)
    (f : ℕ → ℕ → ℕ → ℕ → M) :
    (∑ l ∈ range A, ∑ r ∈ range (l / 2 + 1), ∑ lp ∈ range B,
        ∑ rp ∈ range (lp / 2 + 1), f l r lp rp) =
      ∑ lp ∈ range B, ∑ rp ∈ range (lp / 2 + 1), ∑ l ∈ range A,
        ∑ r ∈ range (l / 2 + 1), f l r lp rp := by
  rw [Finset.sum_congr rfl fun l (_ : l ∈ range A) => Finset.sum_comm
    (f := fun r lp => ∑ rp ∈ range (lp / 2 + 1), f l r lp rp)]
  rw [Finset.sum_comm]
  refine Finset.sum_congr rfl fun lp _ => ?_
  rw [Finset.sum_congr rfl fun l (_ : l ∈ range A) => Finset.sum_comm
    (f := fun r rp => f l r lp rp)]
  exact Finset.sum_comm

lemma Gxyz_symAB (lA mA nA lB mB nB lC mC nC lD mD nD : ℕ) (a b c d : ℝ)
    (RA RB RC RD : Fin 3 → ℝ) :
    Gxyz lB mB nB lA mA nA lC mC nC lD mD nD b a c d RB RA RC RD =
      Gxyz lA mA nA lB mB nB lC mC nC lD mD nD a b c d RA RB RC RD := by
  unfold Gxyz
  rw [add_comm b a, ← gaussianProduct_comm a RA b RB (a + b),
    IJsq_comm RB RA, add_comm lB lA, add_comm mB mA, add_comm nB nA,
    mul_comm b a, mul_comm (Nnorm b lB mB nB) (Nnorm a lA mA nA)]
  refine congrArg₂ (· * ·) ?_ rfl
  refine congrArg₂ (· * ·) ?_ rfl
  refine congrArg₂ (· * ·) ?_ rfl
  refine congrArg₂ (· * ·) ?_ rfl
  refine congrArg₂ (· * ·) ?_ rfl
  refine Finset.sum_congr rfl fun l _ => ?_
  refine Finset.sum_congr rfl fun r _ => ?_
  refine Finset.sum_congr rfl fun lp _ => ?_
  refine Finset.sum_congr rfl fun rp _ => ?_
  refine Finset.sum_congr rfl fun i _ => ?_
  refine Finset.sum_congr rfl fun m _ => ?_
  refine Finset.sum_congr rfl fun s _ => ?_
  refine Finset.sum_congr rfl fun mp _ => ?_
  refine Finset.sum_congr rfl fun sp _ => ?_
  refine Finset.sum_congr rfl fun j _ => ?_
  refine Finset.sum_congr rfl fun n _ => ?_
  refine Finset.sum_congr rfl fun t _ => ?_
  refine Finset.sum_congr rfl fun np _ => ?_
  refine Finset.sum_congr rfl fun tp _ => ?_
  refine Finset.sum_congr rfl fun k _ => ?_
  rw [gi_symAB l lp r rp i lA lB (RA 0) (RB 0)
      (gaussianProduct a RA b RB (a + b) 0) (a + b)
      lC lD (RC 0) (RD 0) (gaussianProduct c RC d RD (c + d) 0) (c + d),
    gi_symAB m mp s sp j mA mB (RA 1) (RB 1)
      (gaussianProduct a RA b RB (a + b) 1) (a + b)
      mC mD (RC 1) (RD 1) (gaussianProduct c RC d RD (c + d) 1) (c + d),
    gi_symAB n np t tp k nA nB (RA 2) (RB 2)
      (gaussianProduct a RA b RB (a + b) 2) (a + b)
      nC nD (RC 2) (RD 2) (gaussianProduct c RC d RD (c + d) 2) (c + d)]

lemma Gxyz_symCD (lA mA nA lB mB nB lC mC nC lD mD nD : ℕ) (a b c d : ℝ)
    (RA RB RC RD : Fin 3 → ℝ) :
    Gxyz lA mA nA lB mB nB lD mD nD lC mC nC a b d c RA RB RD RC =
      Gxyz lA mA nA lB mB nB lC mC nC lD mD nD a b c d RA RB RC RD := by
  unfold Gxyz
  rw [add_comm d c, ← gaussianProduct_comm c RC d RD (c + d),
    IJsq_comm RD RC, add_comm lD lC, add_comm mD mC, add_comm nD nC,
    mul_comm d c, mul_right_comm (Nnorm a lA mA nA * Nnorm b lB mB nB)
      (Nnorm d lD mD nD) (Nnorm c lC mC nC)]
  refine congrArg₂ (· * ·) ?_ rfl
  refine congrArg₂ (· * ·) ?_ rfl
  refine congrArg₂ (· * ·) ?_ rfl
  refine congrArg₂ (· * ·) ?_ rfl
  refine congrArg₂ (· * ·) ?_ rfl
  refine Finset.sum_congr rfl fun l _ => ?_
  refine Finset.sum_congr rfl fun r _ => ?_
  refine Finset.sum_congr rfl fun lp _ => ?_
  refine Finset.sum_congr rfl fun rp _ => ?_
  refine Finset.sum_congr rfl fun i _ => ?_
  refine Finset.sum_congr rfl fun m _ => ?_
  refine Finset.sum_congr rfl fun s _ => ?_
  refine Finset.sum_congr rfl fun mp _ => ?_
  refine Finset.sum_congr rfl fun sp _ => ?_
  refine Finset.sum_congr rfl fun j _ => ?_
  refine Finset.sum_congr rfl fun n _ => ?_
  refine Finset.sum_congr rfl fun t _ => ?_
  refine Finset.sum_congr rfl fun np _ => ?_
  refine Finset.sum_congr rfl fun tp _ => ?_
  refine Finset.sum_congr rfl fun k _ => ?_
  rw [gi_symCD l lp r rp i lA lB (RA 0) (RB 0)
      (gaussianProduct a RA b RB (a + b) 0) (a + b)
      lC lD (RC 0) (RD 0) (gaussianProduct c RC d RD (c + d) 0) (c + d),
    gi_symCD m mp s sp j mA mB (RA 1) (RB 1)
      (gaussianProduct a RA b RB (a + b) 1) (a + b)
      mC mD (RC 1) (RD 1) (gaussianProduct c RC d RD (c + d) 1) (c + d),
    gi_symCD n np t tp k nA nB (RA 2) (RB 2)
      (gaussianProduct a RA b RB (a + b) 2) (a + b)
      nC nD (RC 2) (RD 2) (gaussianProduct c RC d RD (c + d) 2) (c + d)]

lemma Gxyz_symPair (lA mA nA lB mB nB lC mC nC lD mD nD : ℕ) (a b c d : ℝ)
    (RA RB RC RD : Fin 3 → ℝ) :
    Gxyz lC mC nC lD mD nD lA mA nA lB mB nB c d a b RC RD RA RB =
      Gxyz lA mA nA lB mB nB lC mC nC lD mD nD a b c d RA RB RC RD := by
  unfold Gxyz
  rw [IJsq_comm (gaussianProduct c RC d RD (c + d))
      (gaussianProduct a RA b RB (a + b)),
    add_comm (1 / (4 * (c + d))) (1 / (4 * (a + b))),
    mul_comm (c + d) (a + b), add_comm (c + d) (a + b),
    mul_right_comm _ (Real.exp (-(c * d * IJsq RC RD) / (c + d)))
      (Real.exp (-(a * b * IJsq RA RB) / (a + b)))]
  refine congrArg₂ (· * ·) ?_ (by ring)
  refine congrArg₂ (· * ·) ?_ rfl
  refine congrArg₂ (· * ·) ?_ rfl
  refine congrArg₂ (· * ·) ?_ rfl
  refine congrArg₂ (· * ·) ?_ rfl
  rw [sum5_swap (lC + lD + 1) (lA + lB + 1)]
  refine Finset.sum_congr rfl fun x1 _ => ?_
  refine Finset.sum_congr rfl fun x2 hx2 => ?_
  refine Finset.sum_congr rfl fun x3 _ => ?_
  refine Finset.sum_congr rfl fun x4 hx4 => ?_
  rw [show x3 + x1 - 2 * x4 - 2 * x2 = x1 + x3 - 2 * x2 - 2 * x4 by omega]
  refine Finset.sum_congr rfl fun i hi => ?_
  rw [sum5_swap (mC + mD + 1) (mA + mB + 1)]
  refine Finset.sum_congr rfl fun y1 _ => ?_
  refine Finset.sum_congr rfl fun y2 hy2 => ?_
  refine Finset.sum_congr rfl fun y3 _ => ?_
  refine Finset.sum_congr rfl fun y4 hy4 => ?_
  rw [show y3 + y1 - 2 * y4 - 2 * y2 = y1 + y3 - 2 * y2 - 2 * y4 by omega]
  refine Finset.sum_congr rfl fun j hj => ?_
  rw [sum5_swap (nC + nD + 1) (nA + nB + 1)]
  refine Finset.sum_congr rfl fun z1 _ => ?_
  refine Finset.sum_congr rfl fun z2 hz2 => ?_
  refine Finset.sum_congr rfl fun z3 _ => ?_
  refine Finset.sum_congr rfl fun z4 hz4 => ?_
  rw [show z3 + z1 - 2 * z4 - 2 * z2 = z1 + z3 - 2 * z2 - 2 * z4 by omega]
  refine Finset.sum_congr rfl fun k hk => ?_
  simp only [Finset.mem_range] at hx2 hx4 hy2 hy4 hz2 hz4 hi hj hk
  rw [gi_symPair x1 x3 x2 x4 i lA lB (RA 0) (RB 0)
      (gaussianProduct a RA b RB (a + b) 0) (a + b)
      lC lD (RC 0) (RD 0) (gaussianProduct c RC d RD (c + d) 0) (c + d)
      (by omega) (by omega) (by omega),
    gi_symPair y1 y3 y2 y4 j mA mB (RA 1) (RB 1)
      (gaussianProduct a RA b RB (a + b) 1) (a + b)
      mC mD (RC 1) (RD 1) (gaussianProduct c RC d RD (c + d) 1) (c + d)
      (by omega) (by omega) (by omega),
    gi_symPair z1 z3 z2 z4 k nA nB (RA 2) (RB 2)
      (gaussianProduct a RA b RB (a + b) 2) (a + b)
      nC nD (RC 2) (RD 2) (gaussianProduct c RC d RD (c + d) 2) (c + d)
      (by omega) (by omega) (by omega),
    show x3 + x1 + y3 + y1 + z3 + z1 -
        2 * (x4 + x2 + y4 + y2 + z4 + z2) - (i + j + k) =
      x1 + x3 + y1 + y3 + z1 + z3 -
        2 * (x2 + x4 + y2 + y4 + z2 + z4) - (i + j + k) by omega]

end GSymmetry


section GabSymmetry

lemma sum4_swap (f : Fin 3 → Fin 3 → Fin 3 → Fin 3 → ℝ) :
    (∑ i : Fin 3, ∑ j : Fin 3, ∑ k : Fin 3, ∑ l4 : Fin 3, f i j k l4) =
      ∑ k : Fin 3, ∑ l4 : Fin 3, ∑ i : Fin 3, ∑ j : Fin 3, f i j k l4 := by
  rw [Finset.sum_congr rfl fun i (_ : i ∈ Finset.univ) =>
    Finset.sum_comm (f := fun j k => ∑ l4 : Fin 3, f i j k l4)]
  rw [Finset.sum_comm]
  refine Finset.sum_congr rfl fun k _ => ?_
  rw [Finset.sum_congr rfl fun i (_ : i ∈ Finset.univ) =>
    Finset.sum_comm (f := fun j l4 => f i j k l4)]
  exact Finset.sum_comm

lemma Gab_symAB (bA bB bC bD : Orbital) :
    Gab bB bA bC bD = Gab bA bB bC bD := by
  rw [Gab, Gab, Finset.sum_comm]
  refine Finset.sum_congr rfl fun u _ => Finset.sum_congr rfl fun v _ => ?_
  refine Finset.sum_congr rfl fun k _ => Finset.sum_congr rfl fun l4 _ => ?_
  rw [Gxyz_symAB bA.l bA.m bA.n bB.l bB.m bB.n bC.l bC.m bC.n bD.l bD.m bD.n
    ((bA.a u : ℚ) : ℝ) ((bB.a v : ℚ) : ℝ) ((bC.a k : ℚ) : ℝ)
    ((bD.a l4 : ℚ) : ℝ) (rv bA.R) (rv bB.R) (rv bC.R) (rv bD.R)]
  ring

lemma Gab_symCD (bA bB bC bD : Orbital) :
    Gab bA bB bD bC = Gab bA bB bC bD := by
  rw [Gab, Gab]
  refine Finset.sum_congr rfl fun i _ => Finset.sum_congr rfl fun j _ => ?_
  rw [Finset.sum_comm]
  refine Finset.sum_congr rfl fun u _ => Finset.sum_congr rfl fun v _ => ?_
  rw [Gxyz_symCD bA.l bA.m bA.n bB.l bB.m bB.n bC.l bC.m bC.n bD.l bD.m bD.n
    ((bA.a i : ℚ) : ℝ) ((bB.a j : ℚ) : ℝ) ((bC.a u : ℚ) : ℝ)
    ((bD.a v : ℚ) : ℝ) (rv bA.R) (rv bB.R) (rv bC.R) (rv bD.R)]
  ring

lemma Gab_symPair (bA bB bC bD : Orbital) :
    Gab bC bD bA bB = Gab bA bB bC bD := by
  rw [Gab, Gab, sum4_swap]
  refine Finset.sum_congr rfl fun u _ => Finset.sum_congr rfl fun v _ => ?_
  refine Finset.sum_congr rfl fun w _ => Finset.sum_congr rfl fun x _ => ?_
  rw [Gxyz_symPair bA.l bA.m bA.n bB.l bB.m bB.n bC.l bC.m bC.n bD.l bD.m bD.n
    ((bA.a u : ℚ) : ℝ) ((bB.a v : ℚ) : ℝ) ((bC.a w : ℚ) : ℝ)
    ((bD.a x : ℚ) : ℝ) (rv bA.R) (rv bB.R) (rv bC.R) (rv bD.R)]
  ring

end GabSymmetry

section BuilderInvariants

lemma orbOK_of_mem : ∀ (atoms : List String) (i : ℕ)
    (R : List (Fin 3 → ℚ)) (b : List Orbital),
    buildAux atoms i R = some b →
    ∀ o ∈ b, (o.l + o.m + o.n ≤ 1) ∧ ∀ idx : Fin 3, 0 < o.a idx
  | [], _, _, b => by
      intro h o ho
      simp only [buildAux, Option.some.injEq] at h
      rw [← h] at ho
      exact absurd ho (List.not_mem_nil o)
  | atom :: rest, i, R, b => by
      intro h o ho
      simp only [buildAux, Option.bind_eq_some, Option.map_eq_some'] at h
      obtain ⟨Ri, _, os, hos, more, hmore, hb⟩ := h
      rw [← hb, List.mem_append] at ho
      rcases ho with ho | ho
      · by_cases hH : atom = "H"
        · subst hH
          rw [orbsForAtom_H] at hos
          simp only [Option.some.injEq] at hos
          rw [← hos, List.mem_singleton] at ho
          subst ho
          refine ⟨by norm_num, fun idx => ?_⟩
          fin_cases idx <;> norm_num
        · by_cases hO : atom = "O"
          · subst hO
            rw [orbsForAtom_O] at hos
            simp only [Option.some.injEq] at hos
            rw [← hos] at ho
            simp only [List.mem_cons, List.mem_singleton,
              List.not_mem_nil, or_false] at ho
            rcases ho with ho | ho | ho | ho | ho <;> subst ho <;>
              refine ⟨by norm_num, fun idx => ?_⟩ <;>
              fin_cases idx <;> norm_num
          · rw [orbsForAtom_other atom Ri hH hO] at hos
            exact absurd hos (by simp)
      · exact orbOK_of_mem rest (i + 1) R more hmore o ho

end BuilderInvariants



/-- **C5**.  For every basis the builder produces, the integral tensors
have their stated index-permutation symmetries, exactly (hence within the
claimed 1e-8): the overlap and kinetic entries satisfy `S[A,B] = S[B,A]`
and `T[A,B] = T[B,A]`, and the two-electron entries satisfy
`G[A,B,C,D] = G[B,A,C,D] = G[A,B,D,C] = G[C,D,A,B]` (the generators of the
8-fold permutational symmetry). -/
theorem integral_tensor_symmetries (atoms : List String)
    (Rc : List (Fin 3 → ℚ)) (b : List Orbital) (K : ℕ)
    (h : build_sto3Gbasis atoms Rc = some (b, K)) :
    ∀ bA ∈ b, ∀ bB ∈ b, ∀ bC ∈ b, ∀ bD ∈ b,
      (Sab bA bB = Sab bB bA ∧ Tab bA bB = Tab bB bA) ∧
      (Gab bA bB bC bD = Gab bB bA bC bD ∧
        Gab bA bB bC bD = Gab bA bB bD bC ∧
        Gab bA bB bC bD = Gab bC bD bA bB) := by
  intro bA hA bB hB bC hC bD hD
  have hb : buildAux atoms 0 Rc = some b := by
    simp only [build_sto3Gbasis, Option.map_eq_some', Prod.mk.injEq] at h
    obtain ⟨b', hb', hbeq, -⟩ := h
    rwa [hbeq] at hb'
  obtain ⟨hsumA, hposA⟩ := orbOK_of_mem atoms 0 Rc b hb bA hA
  obtain ⟨hsumB, hposB⟩ := orbOK_of_mem atoms 0 Rc b hb bB hB
  exact ⟨⟨Sab_sym bA bB,
      Tab_sym bA bB (by omega) (by omega) (by omega) (by omega) (by omega)
        (by omega) hposA hposB⟩,
    (Gab_symAB bA bB bC bD).symm, (Gab_symCD bA bB bC bD).symm,
    (Gab_symPair bA bB bC bD).symm⟩

/-- Witness for `integral_tensor_symmetries` on the water basis, at the
oxygen 1s and first hydrogen 1s orbitals. -/
theorem integral_tensor_symmetries_witness :
    (Sab waterO1s waterH1s = Sab waterH1s waterO1s ∧
      Tab waterO1s waterH1s = Tab waterH1s waterO1s) ∧
    (Gab waterO1s waterH1s waterO1s waterH1s =
        Gab waterH1s waterO1s waterO1s waterH1s ∧
      Gab waterO1s waterH1s waterO1s waterH1s =
        Gab waterO1s waterH1s waterH1s waterO1s ∧
      Gab waterO1s waterH1s waterO1s waterH1s =
        Gab waterO1s waterH1s waterO1s waterH1s) := by
  have hO : waterO1s ∈ waterBasisList := by
    rw [waterBasisList]
    exact List.mem_cons_self _ _
  have hH : waterH1s ∈ waterBasisList := by
    rw [waterBasisList]
    exact List.mem_cons_of_mem _ (List.mem_cons_of_mem _
      (List.mem_cons_of_mem _ (List.mem_cons_of_mem _
        (List.mem_cons_of_mem _ (List.mem_cons_self _ _)))))
  exact integral_tensor_symmetries ["O", "H", "H"] waterR waterBasisList 7
    rfl waterO1s hO waterH1s hH waterO1s hO waterH1s hH

end HF

